import Mathlib

/-!
Verification of the synopsia plugin core algorithms.

This file gives a shallow embedding of the algorithmic core of the
repository (entropy engine, block analyzer, minimap viewport and
coordinate transforms, color gradient, call-graph builder with BFS call
depths, and the iteration control of the 2-D force layout), and proves
the behavioural claims about it.

Modelling conventions:
* `ea_t` / `asize_t` (unsigned 64-bit addresses and sizes) are modelled
  as `ℕ`; unsigned subtraction appears as truncated `ℕ` subtraction,
  which agrees with the C++ semantics whenever no wrap-around occurs
  (the claims' hypotheses keep all quantities in range).
* `double` is modelled as `ℚ` where the code only performs field
  arithmetic and truncating casts, and as `ℝ` where `log2` is involved
  (the entropy engine).  `static_cast<uint64>` / `static_cast<int>` of a
  non-negative value is truncation, i.e. `Int.floor`.
* Host (IDA) queries are parameters: a byte source for the analyzer, a
  function/xref table for the call-graph builder, and an optional
  program-entry function for the BFS fallback.
-/

namespace Synopsia

/-- IDA's invalid-address sentinel `BADADDR` for a 64-bit `ea_t`. -/
def BADADDR : ℕ := 2 ^ 64 - 1

/-! ## Color and ColorGradient (include/synopsia/common/color.hpp) -/

/-- `Color` : RGBA, channels are `uint8_t` values modelled as `ℕ`.
The default constructor gives opaque black `(0,0,0,255)`. -/
structure Color where
  r : ℕ
  g : ℕ
  b : ℕ
  a : ℕ
deriving DecidableEq, Repr

/-- `Color()` : r = g = b = 0, a = 255 (opaque black). -/
def Color.default : Color := ⟨0, 0, 0, 255⟩

/-- `ColorGradient::Stop` : a position in `[0,1]` and a color. -/
structure Stop where
  position : ℚ
  color : Color
deriving DecidableEq

/-- Clamp a scalar to `[0,1]`, as done at the top of
`ColorGradient::lerp` and `ColorGradient::sample`. -/
def clamp01 (t : ℚ) : ℚ := if t < 0 then 0 else if t > 1 then 1 else t

/-- One channel of `ColorGradient::lerp`: `a + (b - a) * t` computed in
exact arithmetic, then truncated to an integer (`static_cast<uint8_t>`
of a value that is non-negative and `≤ 255` for in-range inputs). -/
def lerpChannel (x y : ℕ) (t : ℚ) : ℕ := (Int.floor ((x : ℚ) + ((y : ℚ) - (x : ℚ)) * t)).toNat

/-- `ColorGradient::lerp` : channel-wise linear interpolation with `t`
clamped to `[0,1]`. -/
def Color.lerp (x y : Color) (t : ℚ) : Color :=
  let s := clamp01 t
  ⟨lerpChannel x.r y.r s, lerpChannel x.g y.g s, lerpChannel x.b y.b s, lerpChannel x.a y.a s⟩

/-- The bracketing-stop search in `ColorGradient::sample`: scan adjacent
pairs `(stops[i], stops[i+1])` and take the first with
`stops[i].position ≤ t ≤ stops[i+1].position`. -/
def findBracket (t : ℚ) : List Stop → Option (Stop × Stop)
  | s₁ :: s₂ :: rest =>
    if s₁.position ≤ t ∧ t ≤ s₂.position then some (s₁, s₂)
    else findBracket t (s₂ :: rest)
  | _ => none

/-- `ColorGradient` holds its stop vector (the constructor sorts it by
position; the claims below only use gradients that are already sorted
or empty, so the stop list is carried directly). -/
structure ColorGradient where
  stops_ : List Stop
deriving DecidableEq

/-- `ColorGradient::sample` : empty stop vector returns the
default-constructed `Color{}`; otherwise clamp `t`, locate the
bracketing stops (defaulting to the front/back pair), return an endpoint
color when `t` falls outside the bracket, else interpolate with a guard
against a zero-width bracket. -/
def ColorGradient.sample (grad : ColorGradient) (t : ℚ) : Color :=
  match h : grad.stops_ with
  | [] => Color.default
  | s :: rest =>
    let t' := clamp01 t
    let front := s
    let back := (s :: rest).getLast (by simp)
    let pair := (findBracket t' (s :: rest)).getD (front, back)
    let prev := pair.1
    let next := pair.2
    if t' ≤ prev.position then prev.color
    else if next.position ≤ t' then next.color
    else
      let range := next.position - prev.position
      let local_t := if 0 < range then (t' - prev.position) / range else 0
      Color.lerp prev.color next.color local_t

/-! ## Viewport and MinimapData (types.hpp, minimap_data.hpp/.cpp) -/

/-- `Viewport` from types.hpp: visible address range plus zoom factor. -/
structure Viewport where
  start_ea : ℕ
  end_ea : ℕ
  zoom : ℚ
deriving DecidableEq

/-- `Viewport::range()` : `end_ea - start_ea` (`asize_t`, truncated). -/
def Viewport.range (v : Viewport) : ℕ := v.end_ea - v.start_ea

/-- The `MinimapData` state used by the viewport and coordinate
operations: database bounds, the viewport, and the block size of the
last analysis (the block/region vectors and the statistics play no role
in those operations and are omitted). -/
structure MinimapState where
  db_start : ℕ
  db_end : ℕ
  block_size : ℕ
  viewport : Viewport
deriving DecidableEq

/-- `MinimapData::y_to_address_ea` : out-of-range pixel rows give
`BADADDR`; otherwise `start + ea_t((y/height) * range)`. -/
def y_to_address_ea (st : MinimapState) (y height : ℤ) : ℕ :=
  if height ≤ 0 ∨ y < 0 ∨ height ≤ y then BADADDR
  else
    let t : ℚ := (y : ℚ) / (height : ℚ)
    let offset : ℕ := (Int.floor (t * (st.viewport.range : ℚ))).toNat
    st.viewport.start_ea + offset

/-- `MinimapData::address_to_y_ea` : `-1` for an invalid height or an
address outside `[start_ea, end_ea)`; `0` when the viewport range is
zero; otherwise `int(((addr-start)/range) * height)`. -/
def address_to_y_ea (st : MinimapState) (addr : ℕ) (height : ℤ) : ℤ :=
  if height ≤ 0 ∨ addr < st.viewport.start_ea ∨ st.viewport.end_ea ≤ addr then -1
  else if st.viewport.range = 0 then 0
  else
    let t : ℚ := ((addr - st.viewport.start_ea : ℕ) : ℚ) / (st.viewport.range : ℚ)
    Int.floor (t * (height : ℚ))

/-- `MinimapData::pan_ida` : shift both viewport bounds by `delta`,
truncated so the window stays inside `[db_start, db_end]`. -/
def pan_ida (st : MinimapState) (delta : ℤ) : MinimapState :=
  let vs := st.viewport.start_ea
  let ve := st.viewport.end_ea
  if 0 < delta then
    let max_delta := st.db_end - ve
    let actual_delta := min delta.toNat max_delta
    { st with viewport := { st.viewport with
        start_ea := vs + actual_delta, end_ea := ve + actual_delta } }
  else if delta < 0 then
    let max_delta := vs - st.db_start
    let actual_delta := min (-delta).toNat max_delta
    { st with viewport := { st.viewport with
        start_ea := vs - actual_delta, end_ea := ve - actual_delta } }
  else st

/-- `MinimapData::zoom_ida` : reject `factor ≤ 0`; compute
`new_range = asize_t(old_range / factor)`; give up if it is below the
block size; clamp it to the database range; recenter on `center`'s
relative position; clamp the window to the database bounds; store the
resulting viewport and zoom factor. -/
def zoom_ida (st : MinimapState) (factor : ℚ) (center : ℕ) : MinimapState :=
  if factor ≤ 0 then st
  else
    let old_range := st.viewport.range
    let new_range := (Int.floor ((old_range : ℚ) / factor)).toNat
    if new_range < st.block_size then st
    else
      let db_range := st.db_end - st.db_start
      let clamped_range := min new_range db_range
      let center_ratio : ℚ := ((center - st.viewport.start_ea : ℕ) : ℚ) / (old_range : ℚ)
      let offset_before : ℕ := (Int.floor (center_ratio * (clamped_range : ℚ))).toNat
      let start0 := if offset_before ≤ center then center - offset_before else st.db_start
      let end0 := start0 + clamped_range
      let start1 := if st.db_end < end0 then
          (if clamped_range ≤ st.db_end then st.db_end - clamped_range else st.db_start)
        else start0
      let end1 := if st.db_end < end0 then st.db_end else end0
      let start2 := if start1 < st.db_start then st.db_start else start1
      let end2 := if start1 < st.db_start then min (st.db_start + clamped_range) st.db_end else end1
      { st with viewport :=
          { start_ea := start2, end_ea := end2,
            zoom := (db_range : ℚ) / ((end2 - start2 : ℕ) : ℚ) } }

/-! ## EntropyCalculator (include/synopsia/entropy.hpp, src/entropy.cpp) -/

/-- `EntropyCalculator::calculate` : Jensen-Shannon divergence of the
observed byte distribution `P` against the uniform distribution
`Q = 1/256`, scaled and inverted to `(1 - JS) * 8`.  Bytes are
`Fin 256`; `double` arithmetic is modelled over `ℝ` with `std::log2`
as `Real.logb 2`.  A null/empty buffer returns `0`. -/
noncomputable def calculate (data : List (Fin 256)) : ℝ :=
  if data = [] then 0
  else
    let size_d : ℝ := data.length
    let p : Fin 256 → ℝ := fun i => (data.count i : ℝ) / size_d
    let q : ℝ := 1 / 256
    let m : Fin 256 → ℝ := fun i => (p i + q) / 2
    let kl_p_m : ℝ := ∑ i : Fin 256,
      (if 0 < p i ∧ 0 < m i then p i * Real.logb 2 (p i / m i) else 0)
    let kl_q_m : ℝ := ∑ i : Fin 256,
      (if 0 < m i then q * Real.logb 2 (q / m i) else 0)
    let js_divergence := 0.5 * kl_p_m + 0.5 * kl_q_m
    (1 - js_divergence) * 8

/-- The observed probability `P(i) = frequency[i] / size` inside
`calculate`. -/
noncomputable def pObs (data : List (Fin 256)) (i : Fin 256) : ℝ :=
  (data.count i : ℝ) / (data.length : ℝ)

/-- The mixture `M(i) = (P(i) + Q(i)) / 2` inside `calculate`,
with `Q(i) = 1/256`. -/
noncomputable def mMix (data : List (Fin 256)) (i : Fin 256) : ℝ :=
  (pObs data i + 1 / 256) / 2

/-- The `kl_p_m` accumulator of `calculate` (terms skipped unless
`P(i) > 0` and `M(i) > 0`). -/
noncomputable def klPM (data : List (Fin 256)) : ℝ :=
  ∑ i : Fin 256,
    (if 0 < pObs data i ∧ 0 < mMix data i
      then pObs data i * Real.logb 2 (pObs data i / mMix data i) else 0)

/-- The `kl_q_m` accumulator of `calculate` (terms skipped unless
`M(i) > 0`). -/
noncomputable def klQM (data : List (Fin 256)) : ℝ :=
  ∑ i : Fin 256,
    (if 0 < mMix data i then (1 / 256 : ℝ) * Real.logb 2 ((1 / 256) / mMix data i) else 0)

/-! ## Block analyzer (src/entropy.cpp) -/

/-- `EntropyBlock` from types.hpp. -/
structure EntropyBlock where
  start_ea : ℕ
  end_ea : ℕ
  entropy : ℝ

/-- The loop body of `EntropyCalculator::analyze_range`: walk `[ea, e)`
in chunks of `block_size` (the last chunk truncated), read the bytes of
each chunk from the host byte source `read` (which may return fewer
bytes than requested), score them with `calculate`, and use score `0`
for an unreadable chunk. -/
noncomputable def analyzeRangeGo (read : ℕ → ℕ → List (Fin 256))
    (e block_size : ℕ) (ea : ℕ) : List EntropyBlock :=
  if h : ea < e ∧ 0 < block_size then
    let remaining := e - ea
    let actual_size := min block_size remaining
    let bytes := read ea actual_size
    let entropy : ℝ := if 0 < bytes.length then calculate bytes else 0
    { start_ea := ea, end_ea := ea + actual_size, entropy := entropy } ::
      analyzeRangeGo read e block_size (ea + actual_size)
  else []
termination_by e - ea
decreasing_by
  have h1 : 0 < min block_size (e - ea) := by
    rcases h with ⟨h1, h2⟩
    omega
  omega

/-- `EntropyCalculator::analyze_range` : empty result for an inverted
range or a zero block size, otherwise the chunk walk above. -/
noncomputable def analyze_range (read : ℕ → ℕ → List (Fin 256))
    (start_ea end_ea block_size : ℕ) : List EntropyBlock :=
  if end_ea ≤ start_ea ∨ block_size = 0 then []
  else analyzeRangeGo read end_ea block_size start_ea

/-- The tiling property claimed for `analyze_range`: the block list is
non-empty, starts at `s`, ends at `e`, is gap- and overlap-free (each
block starts where the previous one ends), every block is non-empty and
at most `bs` long, and every block except the last is exactly `bs`
long. -/
def Tiles (blocks : List EntropyBlock) (s e bs : ℕ) : Prop :=
  blocks ≠ [] ∧
  blocks.head?.map (fun b => b.start_ea) = some s ∧
  blocks.getLast?.map (fun b => b.end_ea) = some e ∧
  List.Chain' (fun b1 b2 => b1.end_ea = b2.start_ea) blocks ∧
  (∀ b ∈ blocks, b.start_ea < b.end_ea ∧ b.end_ea - b.start_ea ≤ bs) ∧
  (∀ b ∈ blocks.dropLast, b.end_ea - b.start_ea = bs)

/-! ## Call-graph builder (features/binary_map_3d/map_data.cpp) -/

/-- The code cross-reference kinds relevant to the builders:
`fl_CN` (call near), `fl_CF` (call far), `fl_JN` (jump near),
`fl_JF` (jump far), and a representative for every other kind. -/
inductive XrefType
  | callNear
  | callFar
  | jumpNear
  | jumpFar
  | otherKind
deriving DecidableEq, Repr

/-- One cross-reference returned by the host: target address and kind. -/
structure Xref where
  to_ea : ℕ
  xtype : XrefType
deriving DecidableEq, Repr

/-- A host function: entry address, end address, and the instruction
heads inside its body (the `next_head` chain walked by the builder). -/
structure FuncInfo where
  start_ea : ℕ
  end_ea : ℕ
  heads : List ℕ
deriving DecidableEq, Repr

/-- The host (IDA) view needed by `BinaryMapData::build_call_graph`:
the function list, `xrefblk_t`-style outgoing xrefs per address, and
`get_func` resolution of an address to its enclosing function. -/
structure XrefHost where
  funcs : List FuncInfo
  xrefsFrom : ℕ → List Xref
  funcAt : ℕ → Option FuncInfo

/-- The builder state: `callees_`, `callers_` (maps address to list, an
absent key reads as the empty list) and the `edges_` vector. -/
structure CallGraphState where
  callees : ℕ → List ℕ
  callers : ℕ → List ℕ
  edges : List (ℕ × ℕ)

/-- Processing of one xref `x` found at an instruction of the function
whose node address is `a` (the body of the inner loop in
`BinaryMapData::build_call_graph`): keep only call-kind xrefs whose
target resolves to a function other than `a` itself, and record the
target once per caller (deduplicated against the callee list). -/
def processXref (host : XrefHost) (a : ℕ) (st : CallGraphState) (x : Xref) : CallGraphState :=
  if x.xtype ≠ XrefType.callNear ∧ x.xtype ≠ XrefType.callFar then st
  else
    match host.funcAt x.to_ea with
    | none => st
    | some target_func =>
      if target_func.start_ea ≠ a then
        let target := target_func.start_ea
        if target ∈ st.callees a then st
        else
          { callees := fun b => if b = a then st.callees a ++ [target] else st.callees b,
            callers := fun b => if b = target then st.callers target ++ [a] else st.callers b,
            edges := st.edges ++ [(a, target)] }
      else st

/-- Processing of one instruction head: fold `processXref` over the
host's outgoing xrefs at that address. -/
def processHead (host : XrefHost) (a : ℕ) (st : CallGraphState) (h : ℕ) : CallGraphState :=
  (host.xrefsFrom h).foldl (processXref host a) st

/-- Processing of one node: re-fetch the function with `get_func` and
walk its instruction heads (a node whose address no longer resolves is
skipped). -/
def processFunc (host : XrefHost) (st : CallGraphState) (a : ℕ) : CallGraphState :=
  match host.funcAt a with
  | none => st
  | some f => f.heads.foldl (processHead host a) st

/-- `BinaryMapData::build_call_graph` : fold the per-node processing
over every node address, starting from empty callee/caller maps and an
empty edge vector (the `callee_count`/`caller_count` node fields are the
sizes of the resulting lists and are not modelled separately). -/
def build_call_graph (host : XrefHost) : CallGraphState :=
  (host.funcs.map (fun f => f.start_ea)).foldl (processFunc host) ⟨fun _ => [], fun _ => [], []⟩

/-- The call-edge criterion in the words of the claim: an edge from `a`
to `b` exactly when some xref originating at an instruction head inside
the function at `a` has kind call-far, call-near, jump-far or jump-near
and its target resolves to the start of a different function `b`.
(Spec-side definition, used to compare the claim against the code.) -/
def ClaimCallEdge (host : XrefHost) (a b : ℕ) : Prop :=
  ∃ f ∈ host.funcs, f.start_ea = a ∧
    ∃ hd ∈ f.heads, ∃ x ∈ host.xrefsFrom hd,
      (x.xtype = XrefType.callNear ∨ x.xtype = XrefType.callFar ∨
       x.xtype = XrefType.jumpNear ∨ x.xtype = XrefType.jumpFar) ∧
      ∃ tf, host.funcAt x.to_ea = some tf ∧ tf.start_ea = b ∧ b ≠ a

/-- The per-xref acceptance condition of `build_call_graph`: the xref
has one of the two call kinds and its target resolves to the start of a
function other than the current node `a`. -/
def CondX (host : XrefHost) (a : ℕ) (x : Xref) (b : ℕ) : Prop :=
  (x.xtype = XrefType.callNear ∨ x.xtype = XrefType.callFar) ∧
  ∃ tf, host.funcAt x.to_ea = some tf ∧ tf.start_ea = b ∧ b ≠ a

/-- The per-function acceptance condition: some xref at some
instruction head of `f` satisfies `CondX`. -/
def CondH (host : XrefHost) (a : ℕ) (f : FuncInfo) (b : ℕ) : Prop :=
  ∃ hd ∈ f.heads, ∃ x ∈ host.xrefsFrom hd, CondX host a x b

/-- The call-edge criterion actually implemented by
`build_call_graph`: only the two call kinds are accepted. -/
def CodeCallEdge (host : XrefHost) (a b : ℕ) : Prop :=
  ∃ f ∈ host.funcs, f.start_ea = a ∧ CondH host a f b

/-- A concrete two-function host whose only cross reference is a
jump-near from the body of the first function to the start of the
second. -/
def cexHost : XrefHost where
  funcs := [⟨0, 4, [0]⟩, ⟨10, 14, [10]⟩]
  xrefsFrom := fun a => if a = 0 then [⟨10, XrefType.jumpNear⟩] else []
  funcAt := fun a =>
    if a = 0 then some ⟨0, 4, [0]⟩ else if a = 10 then some ⟨10, 14, [10]⟩ else none

/-! ## BFS call depths (BinaryMapData::compute_call_depths) -/

/-- Lookup in an `unordered_map<ea_t, vector<ea_t>>` modelled as an
association list; an absent key reads as the empty list. -/
def lookupList (m : List (ℕ × List ℕ)) (a : ℕ) : List ℕ :=
  ((m.find? (fun p => p.1 == a)).map (fun p => p.2)).getD []

/-- Lookup in the `unordered_map<ea_t, uint32> depths` map. -/
def lookupDepth (d : List (ℕ × ℕ)) (a : ℕ) : Option ℕ :=
  (d.find? (fun p => p.1 == a)).map (fun p => p.2)

/-- The entry-point selection of `compute_call_depths`: every node
without callers; if there is none, a single entry derived from the
host's designated program entry address (`fallback` models
`get_func(inf_get_start_ea())`, `none` when that lookup fails). -/
def entryPoints (nodes : List ℕ) (callersMap : List (ℕ × List ℕ))
    (fallback : Option ℕ) : List ℕ :=
  let natural := nodes.filter (fun a => (lookupList callersMap a).isEmpty)
  if natural.isEmpty then
    match fallback with
    | some e => [e]
    | none => []
  else natural

/-- The discovery loop over the callees of the current node: a callee
already in the depth map is skipped, a fresh one is recorded at depth
`d1` and appended to the queue. -/
def discover (d1 : ℕ) : List ℕ → List (ℕ × ℕ) → List (ℕ × ℕ) × List ℕ
  | [], depths => (depths, [])
  | c :: cs, depths =>
    match lookupDepth depths c with
    | some _ => discover d1 cs depths
    | none =>
      let r := discover d1 cs (depths ++ [(c, d1)])
      (r.1, c :: r.2)

/-- The BFS work loop of `compute_call_depths`: pop the front of the
queue, discover its callees one level deeper, and continue.  The C++
loop runs until the queue is empty; here a fuel argument makes the
recursion structural, and `compute_call_depths` passes enough fuel for
the queue to drain (each address is enqueued at most once). -/
def bfsLoop (callees : ℕ → List ℕ) : ℕ → List (ℕ × ℕ) → List ℕ → List (ℕ × ℕ)
  | 0, depths, _ => depths
  | _ + 1, depths, [] => depths
  | fuel + 1, depths, current :: rest =>
    let current_depth := (lookupDepth depths current).getD 0
    let r := discover (current_depth + 1) (callees current) depths
    bfsLoop callees fuel r.1 (rest ++ r.2)

/-- `BinaryMapData::compute_call_depths` : seed every entry point at
depth `0`, run the BFS, and return the depth map.  `nodes` is the node
address list, `calleesMap`/`callersMap` the adjacency maps built by
`build_call_graph`. -/
def compute_call_depths (nodes : List ℕ) (calleesMap callersMap : List (ℕ × List ℕ))
    (fallback : Option ℕ) : List (ℕ × ℕ) :=
  let entries := entryPoints nodes callersMap fallback
  let depths0 := entries.map (fun e => (e, 0))
  let univ := (calleesMap.map (fun p => p.2)).flatten
  bfsLoop (lookupList calleesMap) (entries.length + univ.length + 1) depths0 entries

/-- The final per-node depth assignment: the BFS depth when the node
was reached, `0` otherwise. -/
def assignedDepth (depths : List (ℕ × ℕ)) (v : ℕ) : ℕ :=
  (lookupDepth depths v).getD 0

/-- `ReachN adj S k v` : `v` is reachable from the source set `S` by a
path of exactly `k` call edges. -/
inductive ReachN (adj : ℕ → List ℕ) (S : List ℕ) : ℕ → ℕ → Prop
  | entry (v : ℕ) : v ∈ S → ReachN adj S 0 v
  | step {k : ℕ} {u v : ℕ} : ReachN adj S k u → v ∈ adj u → ReachN adj S (k + 1) v

/-- Reachability from the source set. -/
def Reachable (adj : ℕ → List ℕ) (S : List ℕ) (v : ℕ) : Prop :=
  ∃ k, ReachN adj S k v

/-- `d` is the multi-source shortest-path distance of `v` from `S`. -/
def IsDist (adj : ℕ → List ℕ) (S : List ℕ) (v d : ℕ) : Prop :=
  ReachN adj S d v ∧ ∀ j, ReachN adj S j v → d ≤ j

/-- The loop invariant of the BFS in `compute_call_depths`: the depth
map has duplicate-free keys containing every entry point and every
queued address, the queue is duplicate-free, every recorded depth is
the true shortest-path distance, every fully-processed address has all
its callees discovered, and the queue splits into a front segment at
some level `d` and a back segment at level `d + 1`, with every address
of distance at most `d` already discovered. -/
structure BfsInv (adj : ℕ → List ℕ) (entries : List ℕ)
    (depths : List (ℕ × ℕ)) (q : List ℕ) : Prop where
  keysNodup : (depths.map Prod.fst).Nodup
  entriesSub : ∀ e ∈ entries, e ∈ depths.map Prod.fst
  qSub : ∀ v ∈ q, v ∈ depths.map Prod.fst
  qNodup : q.Nodup
  sound : ∀ v k, (v, k) ∈ depths → IsDist adj entries v k
  closed : ∀ v ∈ depths.map Prod.fst, v ∉ q → ∀ c ∈ adj v, c ∈ depths.map Prod.fst
  level : q = [] ∨ ∃ d qa qb, q = qa ++ qb ∧ qa ≠ [] ∧
    (∀ x ∈ qa, lookupDepth depths x = some d) ∧
    (∀ x ∈ qb, lookupDepth depths x = some (d + 1)) ∧
    (∀ u s, IsDist adj entries u s → s ≤ d → u ∈ depths.map Prod.fst)

/-! ## Iteration control of compute_2d_force_layout
(features/binary_map_3d/imgui_widget.cpp) -/

/-- The Kamada-Kawai iteration cap `min(300, n * 10)`. -/
def kkIterations (n : ℕ) : ℕ := min 300 (n * 10)

/-- The Fruchterman-Reingold iteration cap `min(200, n * 5)`. -/
def frIterations (n : ℕ) : ℕ := min 200 (n * 5)

/-- The KK main loop: each iteration first scans for the largest energy
gradient (`maxDelta`), breaks when it falls below `0.01`, and otherwise
moves the highest-energy node (`step`).  The per-iteration numeric work
is abstracted into the two parameters; the loop returns the final state
and the number of iterations that performed a move. -/
def kkLoop {S : Type} (step : S → S) (maxDelta : S → ℚ) : ℕ → S → S × ℕ
  | 0, s => (s, 0)
  | k + 1, s =>
    if maxDelta s < 1 / 100 then (s, 0)
    else
      let r := kkLoop step maxDelta k (step s)
      (r.1, r.2 + 1)

/-- The FR refinement loop: each iteration applies the force step
(returning the new state and the largest applied displacement), cools,
and breaks after the step when the displacement fell below `0.01`. -/
def frLoop {S : Type} (step : S → S × ℚ) : ℕ → S → S × ℕ
  | 0, s => (s, 0)
  | k + 1, s =>
    let r := step s
    if r.2 < 1 / 100 then (r.1, 1)
    else
      let w := frLoop step k r.1
      (w.1, w.2 + 1)

/-- `ColorGradient(std::vector<Stop>)` : store the stops sorted
ascending by position. -/
def ColorGradient.ofStops (stops : List Stop) : ColorGradient :=
  ⟨stops.mergeSort (fun a b => a.position ≤ b.position)⟩

/-! ## Helper lemmas -/

/-- One unfolding step of the analyzer walk for an in-range chunk. -/
lemma analyzeRangeGo_step (read : ℕ → ℕ → List (Fin 256)) (e bs ea : ℕ)
    (h : ea < e ∧ 0 < bs) :
    analyzeRangeGo read e bs ea =
      { start_ea := ea, end_ea := ea + min bs (e - ea),
        entropy := if 0 < (read ea (min bs (e - ea))).length
          then calculate (read ea (min bs (e - ea))) else 0 } ::
        analyzeRangeGo read e bs (ea + min bs (e - ea)) := by
  rw [analyzeRangeGo, dif_pos h]

/-- The analyzer walk stops at the end of the range. -/
lemma analyzeRangeGo_stop (read : ℕ → ℕ → List (Fin 256)) (e bs ea : ℕ)
    (h : ¬(ea < e ∧ 0 < bs)) :
    analyzeRangeGo read e bs ea = [] := by
  rw [analyzeRangeGo, dif_neg h]

/-- The analyzer walk tiles `[ea, e)` whenever it starts in range. -/
lemma analyzeRangeGo_tiles (read : ℕ → ℕ → List (Fin 256)) (e bs : ℕ) (hbs : 0 < bs) :
    ∀ n ea, e - ea = n → ea < e → Tiles (analyzeRangeGo read e bs ea) ea e bs := by
  intro n
  induction n using Nat.strong_induction_on with
  | _ n ih =>
    intro ea hn hlt
    rw [analyzeRangeGo_step read e bs ea ⟨hlt, hbs⟩]
    set actual := min bs (e - ea) with hact
    have hpos : 0 < actual := by omega
    have hfit : ea + actual ≤ e := by omega
    by_cases hend : ea + actual < e
    · obtain ⟨hne, hhead, hlast, hchain, hlen, hdl⟩ :=
        ih (e - (ea + actual)) (by omega) (ea + actual) rfl hend
      have hbsfull : actual = bs := by omega
      obtain ⟨b0, l0, hl0⟩ : ∃ b0 l0, analyzeRangeGo read e bs (ea + actual) = b0 :: l0 := by
        cases hrec : analyzeRangeGo read e bs (ea + actual) with
        | nil => exact absurd hrec hne
        | cons b0 l0 => exact ⟨b0, l0, rfl⟩
      refine ⟨by simp, by simp, ?_, ?_, ?_, ?_⟩
      · rw [hl0, List.getLast?_cons_cons]
        rw [hl0] at hlast
        exact hlast
      · rw [hl0]
        rw [hl0] at hchain hhead
        refine List.chain'_cons.mpr ⟨?_, hchain⟩
        simpa using hhead.symm
      · intro b hb
        rcases List.mem_cons.mp hb with hb1 | hb2
        · subst hb1
          constructor
          · simp [hpos]
          · simp [hact]
        · exact hlen b hb2
      · rw [hl0]
        rw [hl0] at hdl
        intro b hb
        rcases List.mem_cons.mp (by simpa using hb) with hb1 | hb2
        · subst hb1
          simpa using hbsfull
        · exact hdl b hb2
    · have heq : ea + actual = e := by omega
      rw [analyzeRangeGo_stop read e bs (ea + actual) (by omega)]
      refine ⟨by simp, by simp, by simp [heq], by simp, ?_, by simp⟩
      intro b hb
      rcases List.mem_cons.mp hb with hb1 | _
      · subst hb1
        exact ⟨by simp [hpos], by simp [hact]⟩
      · simp_all

/-- `pObs` is non-negative. -/
lemma pObs_nonneg (data : List (Fin 256)) (i : Fin 256) : 0 ≤ pObs data i := by
  unfold pObs
  positivity

/-- `mMix` is strictly positive (the `m > 0` guards always hold). -/
lemma mMix_pos (data : List (Fin 256)) (i : Fin 256) : 0 < mMix data i := by
  have h := pObs_nonneg data i
  unfold mMix
  linarith

/-- `calculate` on a non-empty buffer in terms of the two KL sums. -/
lemma calculate_eq (data : List (Fin 256)) (hne : data ≠ []) :
    calculate data = (1 - (0.5 * klPM data + 0.5 * klQM data)) * 8 := by
  rw [calculate, if_neg hne]
  rfl

/-- The byte counts over all 256 values sum to the buffer length. -/
lemma sum_count_eq (data : List (Fin 256)) :
    (∑ i : Fin 256, data.count i) = data.length := by
  induction data with
  | nil => simp
  | cons x l ih =>
    simp only [List.count_cons, beq_iff_eq]
    rw [Finset.sum_add_distrib, ih]
    simp

/-- The observed distribution sums to `1` on a non-empty buffer. -/
lemma sum_pObs (data : List (Fin 256)) (hne : data ≠ []) :
    (∑ i : Fin 256, pObs data i) = 1 := by
  unfold pObs
  rw [← Finset.sum_div]
  have hc : (∑ i : Fin 256, (data.count i : ℝ)) = (data.length : ℝ) := by
    rw [← Nat.cast_sum, sum_count_eq]
  rw [hc]
  have hlen : (0 : ℝ) < (data.length : ℝ) := by
    have h := List.length_pos.mpr hne
    exact_mod_cast h
  field_simp

/-- The mixture distribution sums to `1` on a non-empty buffer. -/
lemma sum_mMix (data : List (Fin 256)) (hne : data ≠ []) :
    (∑ i : Fin 256, mMix data i) = 1 := by
  unfold mMix
  rw [← Finset.sum_div, Finset.sum_add_distrib, sum_pObs data hne]
  rw [Finset.sum_const, Finset.card_univ, Fintype.card_fin, nsmul_eq_mul]
  norm_num

/-- Gibbs-style lower bound for one KL term:
`(x - y) / ln 2 ≤ x * log2 (x / y)` for positive `x`, `y`. -/
lemma mul_logb_ratio_lb (x y : ℝ) (hx : 0 < x) (hy : 0 < y) :
    (x - y) / Real.log 2 ≤ x * Real.logb 2 (x / y) := by
  have hlog2 : (0 : ℝ) < Real.log 2 := Real.log_pos (by norm_num)
  have h1 : Real.log (y / x) ≤ y / x - 1 := Real.log_le_sub_one_of_pos (by positivity)
  have h2 : x * Real.log (y / x) ≤ y - x := by
    have h3 := mul_le_mul_of_nonneg_left h1 hx.le
    have h4 : x * (y / x - 1) = y - x := by field_simp
    linarith [h4 ▸ h3]
  have h5 : Real.logb 2 (x / y) = -Real.log (y / x) / Real.log 2 := by
    rw [Real.logb, Real.log_div hx.ne' hy.ne', Real.log_div hy.ne' hx.ne']
    ring
  rw [h5]
  have h6 : x * (-Real.log (y / x) / Real.log 2) = (x * -Real.log (y / x)) / Real.log 2 := by
    ring
  rw [h6]
  exact (div_le_div_right hlog2).mpr (by linarith)

/-- Upper bound for one KL term when the ratio is at most `2`:
`x * log2 (x / y) ≤ x`. -/
lemma mul_logb_ratio_ub (x y : ℝ) (hx : 0 < x) (hy : 0 < y) (hxy : x / y ≤ 2) :
    x * Real.logb 2 (x / y) ≤ x := by
  have h1 : Real.logb 2 (x / y) ≤ Real.logb 2 2 :=
    Real.logb_le_logb_of_le (by norm_num) (by positivity) hxy
  rw [Real.logb_self_eq_one (by norm_num)] at h1
  nlinarith [hx]

/-- The `m > 0` guard of `kl_p_m` is redundant. -/
lemma klPM_eq (data : List (Fin 256)) :
    klPM data = ∑ i : Fin 256,
      (if 0 < pObs data i
        then pObs data i * Real.logb 2 (pObs data i / mMix data i) else 0) := by
  unfold klPM
  refine Finset.sum_congr rfl fun i _ => ?_
  simp [mMix_pos data i]

/-- The `m > 0` guard of `kl_q_m` is redundant. -/
lemma klQM_eq (data : List (Fin 256)) :
    klQM data = ∑ i : Fin 256, (1 / 256 : ℝ) * Real.logb 2 ((1 / 256) / mMix data i) := by
  unfold klQM
  refine Finset.sum_congr rfl fun i _ => ?_
  rw [if_pos (mMix_pos data i)]

/-- `KL(P ‖ M) ≤ 1` : each ratio `P/M` is at most `2`. -/
lemma klPM_le_one (data : List (Fin 256)) (hne : data ≠ []) : klPM data ≤ 1 := by
  rw [klPM_eq]
  have hle : ∀ i ∈ (Finset.univ : Finset (Fin 256)),
      (if 0 < pObs data i
        then pObs data i * Real.logb 2 (pObs data i / mMix data i) else 0) ≤ pObs data i := by
    intro i _
    by_cases hp : 0 < pObs data i
    · rw [if_pos hp]
      refine mul_logb_ratio_ub _ _ hp (mMix_pos data i) ?_
      rw [div_le_iff (mMix_pos data i)]
      unfold mMix
      linarith
    · rw [if_neg hp]
      exact pObs_nonneg data i
  calc (∑ i : Fin 256, (if 0 < pObs data i
          then pObs data i * Real.logb 2 (pObs data i / mMix data i) else 0))
      ≤ ∑ i : Fin 256, pObs data i := Finset.sum_le_sum hle
    _ = 1 := sum_pObs data hne

/-- `0 ≤ KL(P ‖ M)` : Gibbs' inequality, using `ΣP = ΣM = 1`. -/
lemma klPM_nonneg (data : List (Fin 256)) (hne : data ≠ []) : 0 ≤ klPM data := by
  rw [klPM_eq]
  have hlog2 : (0 : ℝ) < Real.log 2 := Real.log_pos (by norm_num)
  have hsum : (∑ i : Fin 256, (pObs data i - mMix data i) / Real.log 2) = 0 := by
    rw [← Finset.sum_div, Finset.sum_sub_distrib, sum_pObs data hne, sum_mMix data hne]
    simp
  have hle : ∀ i ∈ (Finset.univ : Finset (Fin 256)),
      (pObs data i - mMix data i) / Real.log 2 ≤
        (if 0 < pObs data i
          then pObs data i * Real.logb 2 (pObs data i / mMix data i) else 0) := by
    intro i _
    by_cases hp : 0 < pObs data i
    · rw [if_pos hp]
      exact mul_logb_ratio_lb _ _ hp (mMix_pos data i)
    · rw [if_neg hp]
      have hp0 : pObs data i = 0 := le_antisymm (not_lt.mp hp) (pObs_nonneg data i)
      rw [hp0]
      have hm := mMix_pos data i
      apply div_nonpos_of_nonpos_of_nonneg <;> linarith
  calc (0 : ℝ) = ∑ i : Fin 256, (pObs data i - mMix data i) / Real.log 2 := hsum.symm
    _ ≤ _ := Finset.sum_le_sum hle

/-- `KL(Q ‖ M) ≤ 1` : each ratio `Q/M` is at most `2`. -/
lemma klQM_le_one (data : List (Fin 256)) : klQM data ≤ 1 := by
  rw [klQM_eq]
  have hle : ∀ i ∈ (Finset.univ : Finset (Fin 256)),
      (1 / 256 : ℝ) * Real.logb 2 ((1 / 256) / mMix data i) ≤ (1 / 256 : ℝ) := by
    intro i _
    refine mul_logb_ratio_ub _ _ (by norm_num) (mMix_pos data i) ?_
    rw [div_le_iff (mMix_pos data i)]
    have hp := pObs_nonneg data i
    unfold mMix
    linarith
  calc (∑ i : Fin 256, (1 / 256 : ℝ) * Real.logb 2 ((1 / 256) / mMix data i))
      ≤ ∑ _i : Fin 256, (1 / 256 : ℝ) := Finset.sum_le_sum hle
    _ = 1 := by
      rw [Finset.sum_const, Finset.card_univ, Fintype.card_fin, nsmul_eq_mul]
      norm_num

/-- `0 ≤ KL(Q ‖ M)` : Gibbs' inequality, using `ΣQ = ΣM = 1`. -/
lemma klQM_nonneg (data : List (Fin 256)) (hne : data ≠ []) : 0 ≤ klQM data := by
  rw [klQM_eq]
  have hsum : (∑ i : Fin 256, ((1 / 256 : ℝ) - mMix data i) / Real.log 2) = 0 := by
    rw [← Finset.sum_div, Finset.sum_sub_distrib, sum_mMix data hne]
    rw [Finset.sum_const, Finset.card_univ, Fintype.card_fin, nsmul_eq_mul]
    norm_num
  calc (0 : ℝ) = ∑ i : Fin 256, ((1 / 256 : ℝ) - mMix data i) / Real.log 2 := hsum.symm
    _ ≤ _ := Finset.sum_le_sum fun i _ =>
        mul_logb_ratio_lb (1 / 256) (mMix data i) (by norm_num) (mMix_pos data i)

/-- A buffer whose 256 byte counts are all `k > 0` scores exactly `8`. -/
lemma calculate_uniform (data : List (Fin 256)) (k : ℕ) (hk : 0 < k)
    (hcount : ∀ i, data.count i = k) : calculate data = 8 := by
  have hlen : data.length = 256 * k := by
    rw [← sum_count_eq]
    rw [Finset.sum_congr rfl (fun i _ => hcount i), Finset.sum_const, Finset.card_univ,
      Fintype.card_fin, smul_eq_mul]
  have hne : data ≠ [] := by
    intro h
    rw [h] at hlen
    simp at hlen
    omega
  have hp : ∀ i, pObs data i = 1 / 256 := by
    intro i
    unfold pObs
    rw [hcount i, hlen]
    have hk0 : ((k : ℝ)) ≠ 0 := by exact_mod_cast hk.ne'
    push_cast
    field_simp
    ring
  have hm : ∀ i, mMix data i = 1 / 256 := by
    intro i
    unfold mMix
    rw [hp i]
    norm_num
  have hPM : klPM data = 0 := by
    rw [klPM_eq]
    refine Finset.sum_eq_zero fun i _ => ?_
    rw [hp i, hm i]
    rw [if_pos (by norm_num)]
    norm_num
  have hQM : klQM data = 0 := by
    rw [klQM_eq]
    refine Finset.sum_eq_zero fun i _ => ?_
    rw [hm i]
    norm_num
  rw [calculate_eq data hne, hPM, hQM]
  norm_num

/-- A constant buffer scores exactly `1/8 + (257/64) * log2 (257/256)`. -/
lemma calculate_replicate (v : Fin 256) (n : ℕ) (hn : 0 < n) :
    calculate (List.replicate n v) = 1 / 8 + (257 / 64) * Real.logb 2 (257 / 256) := by
  set data := List.replicate n v with hdata
  have hne : data ≠ [] := by
    rw [hdata]
    intro h
    have := congrArg List.length h
    simp at this
    omega
  have hlen : data.length = n := by simp [hdata]
  have hcount : ∀ i : Fin 256, data.count i = if i = v then n else 0 := by
    intro i
    rw [hdata, List.count_replicate]
    simp only [beq_iff_eq]
    by_cases hiv : i = v
    · rw [if_pos hiv.symm, if_pos hiv]
    · rw [if_neg (fun hv => hiv hv.symm), if_neg hiv]
  have hn0 : ((n : ℝ)) ≠ 0 := by exact_mod_cast hn.ne'
  have hp : ∀ i, pObs data i = if i = v then 1 else 0 := by
    intro i
    unfold pObs
    rw [hcount i, hlen]
    by_cases hiv : i = v
    · rw [if_pos hiv, if_pos hiv]
      field_simp
    · rw [if_neg hiv, if_neg hiv]
      simp
  have hmv : mMix data v = 257 / 512 := by
    unfold mMix
    rw [hp v, if_pos rfl]
    norm_num
  have hmo : ∀ i, i ≠ v → mMix data i = 1 / 512 := by
    intro i hiv
    unfold mMix
    rw [hp i, if_neg hiv]
    norm_num
  have hlogdiv : ∀ x y : ℝ, x ≠ 0 → y ≠ 0 →
      Real.logb 2 (x / y) = Real.logb 2 x - Real.logb 2 y := fun x y hx hy =>
    Real.logb_div hx hy
  have hlog2self : Real.logb 2 (2 : ℝ) = 1 := Real.logb_self_eq_one (by norm_num)
  have hlog256 : Real.logb 2 (256 : ℝ) = 8 := by
    rw [show (256 : ℝ) = 2 ^ (8 : ℕ) by norm_num, Real.logb_pow, hlog2self]
    norm_num
  have hlog257 : Real.logb 2 (257 : ℝ) = 8 + Real.logb 2 (257 / 256) := by
    have h := hlogdiv 257 256 (by norm_num) (by norm_num)
    rw [hlog256] at h
    linarith
  have hPM : klPM data = 1 - Real.logb 2 (257 / 256) := by
    rw [klPM_eq]
    rw [Finset.sum_eq_single v]
    · rw [hp v, if_pos rfl, hmv, if_pos (by norm_num)]
      rw [show (1 : ℝ) / (257 / 512) = 2 / (257 / 256) by norm_num]
      rw [hlogdiv 2 (257 / 256) (by norm_num) (by norm_num), hlog2self]
      ring
    · intro i _ hiv
      rw [hp i, if_neg hiv]
      rw [if_neg (by norm_num)]
    · intro h
      exact absurd (Finset.mem_univ v) h
  have hQM : klQM data = (248 - Real.logb 2 (257 / 256)) / 256 := by
    rw [klQM_eq]
    rw [← Finset.add_sum_erase _ _ (Finset.mem_univ v)]
    have hrest : (∑ i ∈ Finset.univ.erase v,
        (1 / 256 : ℝ) * Real.logb 2 ((1 / 256) / mMix data i)) = 255 * (1 / 256) := by
      have hcongr : ∀ i ∈ Finset.univ.erase v,
          (1 / 256 : ℝ) * Real.logb 2 ((1 / 256) / mMix data i) = (1 / 256 : ℝ) := by
        intro i hi
        rw [hmo i (Finset.mem_erase.mp hi).1]
        rw [show (1 / 256 : ℝ) / (1 / 512) = 2 by norm_num, hlog2self]
        norm_num
      rw [Finset.sum_congr rfl hcongr, Finset.sum_const,
        Finset.card_erase_of_mem (Finset.mem_univ v), Finset.card_univ, Fintype.card_fin,
        nsmul_eq_mul]
      norm_num
    rw [hrest, hmv]
    rw [show (1 / 256 : ℝ) / (257 / 512) = 2 / 257 by norm_num]
    rw [hlogdiv 2 257 (by norm_num) (by norm_num), hlog2self, hlog257]
    ring
  rw [calculate_eq data hne, hPM, hQM]
  ring

/-- `0 ≤ log2 (257/256) ≤ 6/1000`, from `ln(1+x) ≤ x` and
`ln 2 > 0.6931`. -/
lemma logb_257_256_bounds :
    0 ≤ Real.logb 2 ((257 : ℝ) / 256) ∧ Real.logb 2 ((257 : ℝ) / 256) ≤ 6 / 1000 := by
  have hlog2 : (0.6931471803 : ℝ) < Real.log 2 := Real.log_two_gt_d9
  have hpos : (0 : ℝ) < Real.log 2 := by linarith
  constructor
  · exact Real.logb_nonneg (by norm_num) (by norm_num)
  · have hup : Real.log ((257 : ℝ) / 256) ≤ 1 / 256 := by
      have h := Real.log_le_sub_one_of_pos (show (0 : ℝ) < 257 / 256 by norm_num)
      linarith
    rw [Real.logb, div_le_iff hpos]
    nlinarith

/-- `processXref` is the identity on an xref that satisfies no
`CondX`. -/
lemma processXref_skip (host : XrefHost) (a : ℕ) (st : CallGraphState) (x : Xref)
    (hcx : ∀ b, ¬ CondX host a x b) : processXref host a st x = st := by
  unfold processXref
  by_cases h1 : x.xtype ≠ XrefType.callNear ∧ x.xtype ≠ XrefType.callFar
  · rw [if_pos h1]
  · rw [if_neg h1]
    push_neg at h1
    have hkind : x.xtype = XrefType.callNear ∨ x.xtype = XrefType.callFar := by
      by_cases hc : x.xtype = XrefType.callNear
      · exact Or.inl hc
      · exact Or.inr (h1 hc)
    cases h2 : host.funcAt x.to_ea with
    | none => rfl
    | some tf =>
      by_cases h3 : tf.start_ea ≠ a
      · exact absurd ⟨hkind, tf, h2, rfl, h3⟩ (hcx tf.start_ea)
      · exact if_neg h3

/-- Effect of folding `processXref` over an xref list: the callee list
at `a` accumulates exactly the `CondX` targets, other callee lists are
untouched, and an edge `(a, w)` appears exactly for a `CondX` target
`w` that was not already recorded. -/
lemma foldl_processXref_spec (host : XrefHost) (a : ℕ) :
    ∀ (xs : List Xref) (st : CallGraphState),
      (∀ b, b ∈ (xs.foldl (processXref host a) st).callees a ↔
        (b ∈ st.callees a ∨ ∃ x ∈ xs, CondX host a x b)) ∧
      (∀ b, b ≠ a → (xs.foldl (processXref host a) st).callees b = st.callees b) ∧
      (∀ u w, (u, w) ∈ (xs.foldl (processXref host a) st).edges ↔
        ((u, w) ∈ st.edges ∨
          (u = a ∧ (∃ x ∈ xs, CondX host a x w) ∧ w ∉ st.callees a))) := by
  intro xs
  induction xs with
  | nil =>
    intro st
    refine ⟨fun b => by simp, fun b _ => rfl, fun u w => by simp⟩
  | cons x xs ih =>
    intro st
    rw [List.foldl_cons]
    by_cases hdead : ∀ b, ¬ CondX host a x b
    · rw [processXref_skip host a st x hdead]
      obtain ⟨ih1, ih2, ih3⟩ := ih st
      refine ⟨?_, ih2, ?_⟩
      · intro b
        rw [ih1 b, List.exists_mem_cons_iff]
        have := hdead b
        tauto
      · intro u w
        rw [ih3 u w, List.exists_mem_cons_iff]
        have := hdead w
        tauto
    · push_neg at hdead
      obtain ⟨b0, hb0⟩ := hdead
      obtain ⟨hkind, tf, htf, hstart, hne⟩ := hb0
      have hcx : ∀ b, CondX host a x b ↔ b = tf.start_ea := by
        intro b
        constructor
        · rintro ⟨_, tf', htf', hstart', _⟩
          rw [htf] at htf'
          cases htf'
          exact hstart'.symm
        · rintro rfl
          exact ⟨hkind, tf, htf, rfl, hstart ▸ hne⟩
      have hta : tf.start_ea ≠ a := hstart ▸ hne
      have hnotskip : ¬(x.xtype ≠ XrefType.callNear ∧ x.xtype ≠ XrefType.callFar) := by
        rcases hkind with h | h
        · intro hc
          exact hc.1 h
        · intro hc
          exact hc.2 h
      by_cases hmem : tf.start_ea ∈ st.callees a
      · have hskip : processXref host a st x = st := by
          unfold processXref
          rw [if_neg hnotskip]
          simp only [htf]
          rw [if_pos hta, if_pos hmem]
        rw [hskip]
        obtain ⟨ih1, ih2, ih3⟩ := ih st
        refine ⟨?_, ih2, ?_⟩
        · intro b
          rw [ih1 b, List.exists_mem_cons_iff, hcx b]
          by_cases hb : b = tf.start_ea
          · subst hb
            tauto
          · tauto
        · intro u w
          rw [ih3 u w, List.exists_mem_cons_iff, hcx w]
          by_cases hw : w = tf.start_ea
          · subst hw
            tauto
          · tauto
      · set st' := processXref host a st x with hst'
        have hstep : st' = ⟨fun b => if b = a then st.callees a ++ [tf.start_ea] else st.callees b,
            fun b => if b = tf.start_ea then st.callers tf.start_ea ++ [a] else st.callers b,
            st.edges ++ [(a, tf.start_ea)]⟩ := by
          rw [hst']
          unfold processXref
          rw [if_neg hnotskip]
          simp only [htf]
          rw [if_pos hta, if_neg hmem]
        have hc1 : st'.callees a = st.callees a ++ [tf.start_ea] := by
          rw [hstep]
          simp
        have hc2 : ∀ b, b ≠ a → st'.callees b = st.callees b := by
          intro b hb
          rw [hstep]
          simp [hb]
        have he : st'.edges = st.edges ++ [(a, tf.start_ea)] := by
          rw [hstep]
        clear_value st'
        clear hstep hst'
        obtain ⟨ih1, ih2, ih3⟩ := ih st'
        refine ⟨?_, ?_, ?_⟩
        · intro b
          rw [ih1 b, hc1, List.exists_mem_cons_iff, hcx b, List.mem_append,
            List.mem_singleton, or_assoc]
        · intro b hb
          rw [ih2 b hb, hc2 b hb]
        · intro u w
          rw [ih3 u w, he, hc1, List.exists_mem_cons_iff, hcx w, List.mem_append,
            List.mem_append, List.mem_singleton, List.mem_singleton, Prod.mk.injEq]
          by_cases hw : w = tf.start_ea
          · subst hw
            generalize (∃ x ∈ xs, CondX host a x tf.start_ea) = X
            tauto
          · generalize (∃ x ∈ xs, CondX host a x w) = X
            tauto

/-- Effect of folding `processHead` over the instruction heads of one
function. -/
lemma foldl_processHead_spec (host : XrefHost) (a : ℕ) :
    ∀ (hs : List ℕ) (st : CallGraphState),
      (∀ b, b ∈ (hs.foldl (processHead host a) st).callees a ↔
        (b ∈ st.callees a ∨ ∃ hd ∈ hs, ∃ x ∈ host.xrefsFrom hd, CondX host a x b)) ∧
      (∀ b, b ≠ a → (hs.foldl (processHead host a) st).callees b = st.callees b) ∧
      (∀ u w, (u, w) ∈ (hs.foldl (processHead host a) st).edges ↔
        ((u, w) ∈ st.edges ∨
          (u = a ∧ (∃ hd ∈ hs, ∃ x ∈ host.xrefsFrom hd, CondX host a x w) ∧
            w ∉ st.callees a))) := by
  intro hs
  induction hs with
  | nil =>
    intro st
    refine ⟨fun b => by simp, fun b _ => rfl, fun u w => by simp⟩
  | cons h hs ih =>
    intro st
    rw [List.foldl_cons]
    obtain ⟨x1, x2, x3⟩ := foldl_processXref_spec host a (host.xrefsFrom h) st
    obtain ⟨ih1, ih2, ih3⟩ := ih (processHead host a st h)
    have hph : processHead host a st h = (host.xrefsFrom h).foldl (processXref host a) st := rfl
    refine ⟨?_, ?_, ?_⟩
    · intro b
      rw [ih1 b, hph, x1 b, List.exists_mem_cons_iff, or_assoc]
    · intro b hb
      rw [ih2 b hb, hph, x2 b hb]
    · intro u w
      rw [ih3 u w, hph, x3 u w, x1 w, List.exists_mem_cons_iff]
      generalize (∃ x ∈ host.xrefsFrom h, CondX host a x w) = A
      generalize (∃ hd ∈ hs, ∃ x ∈ host.xrefsFrom hd, CondX host a x w) = B
      tauto

/-- Effect of folding `processFunc` over a duplicate-free node address
list whose callee lists start empty: the final edge set is exactly the
`CondH` relation. -/
lemma foldl_processFunc_spec (host : XrefHost) :
    ∀ (as : List ℕ) (st : CallGraphState), as.Nodup →
      (∀ a ∈ as, st.callees a = []) →
      ∀ u w, (u, w) ∈ (as.foldl (processFunc host) st).edges ↔
        ((u, w) ∈ st.edges ∨
          ∃ a ∈ as, u = a ∧ ∃ f, host.funcAt a = some f ∧ CondH host a f w) := by
  intro as
  induction as with
  | nil =>
    intro st _ _ u w
    simp
  | cons a as ih =>
    intro st hnd hempty u w
    rw [List.foldl_cons]
    cases hfa : host.funcAt a with
    | none =>
      have hid : processFunc host st a = st := by
        unfold processFunc
        rw [hfa]
      rw [hid]
      rw [ih st (List.nodup_cons.mp hnd).2 (fun b hb => hempty b (List.mem_cons_of_mem a hb))
        u w]
      rw [List.exists_mem_cons_iff]
      constructor
      · rintro (h | h)
        · exact Or.inl h
        · exact Or.inr (Or.inr h)
      · rintro (h | ⟨heq, f, hf, _⟩ | h)
        · exact Or.inl h
        · rw [hfa] at hf
          cases hf
        · exact Or.inr h
    | some f =>
      have hstep : processFunc host st a = f.heads.foldl (processHead host a) st := by
        unfold processFunc
        rw [hfa]
      obtain ⟨h1, h2, h3⟩ := foldl_processHead_spec host a f.heads st
      have hemptyA : st.callees a = [] := hempty a (List.mem_cons_self a as)
      have hrest : ∀ b ∈ as, (processFunc host st a).callees b = [] := by
        intro b hb
        have hba : b ≠ a := by
          intro hba
          subst hba
          exact (List.nodup_cons.mp hnd).1 hb
        rw [hstep, h2 b hba]
        exact hempty b (List.mem_cons_of_mem a hb)
      rw [ih (processFunc host st a) (List.nodup_cons.mp hnd).2 hrest u w]
      rw [hstep, h3 u w, List.exists_mem_cons_iff, hemptyA]
      constructor
      · rintro ((h | ⟨hu, hcond, _⟩) | ⟨a1, ha1, hu, f1, hf1, hcond1⟩)
        · exact Or.inl h
        · exact Or.inr (Or.inl ⟨hu, f, hfa, hcond⟩)
        · exact Or.inr (Or.inr ⟨a1, ha1, hu, f1, hf1, hcond1⟩)
      · rintro (h | ⟨hu, f1, hf1, hcond1⟩ | ⟨a1, ha1, hu, f1, hf1, hcond1⟩)
        · exact Or.inl (Or.inl h)
        · rw [hfa] at hf1
          cases hf1
          exact Or.inl (Or.inr ⟨hu, hcond1, List.not_mem_nil w⟩)
        · exact Or.inr ⟨a1, ha1, hu, f1, hf1, hcond1⟩

/-- `lookupDepth` is `none` exactly on absent keys. -/
lemma lookupDepth_eq_none {d : List (ℕ × ℕ)} {v : ℕ} :
    lookupDepth d v = none ↔ v ∉ d.map Prod.fst := by
  unfold lookupDepth
  rw [Option.map_eq_none', List.find?_eq_none]
  constructor
  · intro h hv
    obtain ⟨p, hp, hpv⟩ := List.mem_map.mp hv
    have hb := h p hp
    simp only [beq_iff_eq] at hb
    exact hb hpv
  · intro h p hp
    simp only [beq_iff_eq]
    intro hpv
    exact h (List.mem_map.mpr ⟨p, hp, hpv⟩)

/-- A present key has a looked-up depth. -/
lemma lookupDepth_isSome_of_mem {d : List (ℕ × ℕ)} {v : ℕ} (h : v ∈ d.map Prod.fst) :
    ∃ k, lookupDepth d v = some k := by
  cases hl : lookupDepth d v with
  | none => exact absurd (lookupDepth_eq_none.mp hl) (by simp [h])
  | some k => exact ⟨k, rfl⟩

/-- A successful lookup is a member of the map. -/
lemma lookupDepth_mem {d : List (ℕ × ℕ)} {v k : ℕ} (h : lookupDepth d v = some k) :
    (v, k) ∈ d := by
  unfold lookupDepth at h
  cases hf : d.find? (fun p => p.1 == v) with
  | none =>
    rw [hf] at h
    cases h
  | some p =>
    rw [hf] at h
    have hp1 : p.1 = v := by
      have := List.find?_some hf
      simpa using this
    have hp2 : p.2 = k := by
      simpa using h
    have hmem := List.mem_of_find?_eq_some hf
    have : p = (v, k) := by
      cases p
      simp_all
    rw [← this]
    exact hmem

/-- Lookup on an appended map prefers the first map. -/
lemma lookupDepth_append_left {d1 d2 : List (ℕ × ℕ)} {v : ℕ}
    (h : v ∈ d1.map Prod.fst) :
    lookupDepth (d1 ++ d2) v = lookupDepth d1 v := by
  unfold lookupDepth
  rw [List.find?_append]
  obtain ⟨k, hk⟩ := lookupDepth_isSome_of_mem h
  unfold lookupDepth at hk
  cases hf : d1.find? (fun p => p.1 == v) with
  | none =>
    rw [hf] at hk
    cases hk
  | some p => simp [Option.or_some]

/-- Lookup on an appended map falls through an absent first key. -/
lemma lookupDepth_append_right {d1 d2 : List (ℕ × ℕ)} {v : ℕ}
    (h : lookupDepth d1 v = none) :
    lookupDepth (d1 ++ d2) v = lookupDepth d2 v := by
  unfold lookupDepth
  rw [List.find?_append]
  unfold lookupDepth at h
  cases hf : d1.find? (fun p => p.1 == v) with
  | none => rw [Option.none_or]
  | some p =>
    rw [hf] at h
    cases h

/-- A shortest distance is unique. -/
lemma isDist_unique {adj : ℕ → List ℕ} {S : List ℕ} {v d1 d2 : ℕ}
    (h1 : IsDist adj S v d1) (h2 : IsDist adj S v d2) : d1 = d2 :=
  le_antisymm (h1.2 d2 h2.1) (h2.2 d1 h1.1)

/-- Every reachability witness dominates a shortest distance. -/
lemma reachN_isDist {adj : ℕ → List ℕ} {S : List ℕ} {j v : ℕ}
    (h : ReachN adj S j v) : ∃ s, IsDist adj S v s ∧ s ≤ j := by
  classical
  have hex : ∃ k, ReachN adj S k v := ⟨j, h⟩
  exact ⟨Nat.find hex, ⟨Nat.find_spec hex, fun j2 hj2 => Nat.find_min' hex hj2⟩,
    Nat.find_min' hex h⟩

/-- Effect of the discovery loop when the current node sits at distance
`d`: exactly the fresh callees are appended, each recorded at depth
`d + 1` (their true shortest distance), old records and lookups are
untouched, and afterwards every callee is in the map. -/
lemma discover_spec (adj : ℕ → List ℕ) (entries : List ℕ) (d hnode : ℕ)
    (hh : ReachN adj entries d hnode) :
    ∀ (cs : List ℕ) (depths : List (ℕ × ℕ)),
      (∀ c ∈ cs, c ∈ adj hnode) →
      (depths.map Prod.fst).Nodup →
      (∀ v k, (v, k) ∈ depths → IsDist adj entries v k) →
      (∀ u s, IsDist adj entries u s → s ≤ d → u ∈ depths.map Prod.fst) →
      ((discover (d + 1) cs depths).1.map Prod.fst
          = depths.map Prod.fst ++ (discover (d + 1) cs depths).2) ∧
      (discover (d + 1) cs depths).2.Nodup ∧
      (∀ c ∈ (discover (d + 1) cs depths).2, c ∉ depths.map Prod.fst ∧ c ∈ cs) ∧
      (∀ c ∈ cs, c ∈ (discover (d + 1) cs depths).1.map Prod.fst) ∧
      (∀ v k, (v, k) ∈ (discover (d + 1) cs depths).1 → IsDist adj entries v k) ∧
      (∀ x ∈ depths.map Prod.fst,
        lookupDepth (discover (d + 1) cs depths).1 x = lookupDepth depths x) ∧
      (∀ c ∈ (discover (d + 1) cs depths).2,
        lookupDepth (discover (d + 1) cs depths).1 c = some (d + 1)) := by
  intro cs
  induction cs with
  | nil =>
    intro depths _ _ hsound _
    have h0 : discover (d + 1) [] depths = (depths, []) := rfl
    rw [h0]
    exact ⟨by simp, List.nodup_nil, by simp, by simp, hsound, fun x _ => rfl, by simp⟩
  | cons c cs ih =>
    intro depths hcs hnd hsound hfront
    cases hl : lookupDepth depths c with
    | some k =>
      have hstep : discover (d + 1) (c :: cs) depths = discover (d + 1) cs depths := by
        conv_lhs => rw [discover]
        rw [hl]
      rw [hstep]
      obtain ⟨i1, i2, i3, i4, i5, i6, i7⟩ :=
        ih depths (fun c2 hc2 => hcs c2 (List.mem_cons_of_mem c hc2)) hnd hsound hfront
      refine ⟨i1, i2, ?_, ?_, i5, i6, i7⟩
      · intro c2 hc2
        obtain ⟨ha, hb⟩ := i3 c2 hc2
        exact ⟨ha, List.mem_cons_of_mem c hb⟩
      · intro c2 hc2
        rcases List.mem_cons.mp hc2 with rfl | hc2m
        · have hckeys : c2 ∈ depths.map Prod.fst :=
            List.mem_map_of_mem Prod.fst (lookupDepth_mem hl)
          rw [i1]
          exact List.mem_append_left _ hckeys
        · exact i4 c2 hc2m
    | none =>
      have hfresh : c ∉ depths.map Prod.fst := lookupDepth_eq_none.mp hl
      have hcadj : c ∈ adj hnode := hcs c (List.mem_cons_self c cs)
      have hreach : ReachN adj entries (d + 1) c := ReachN.step hh hcadj
      have hdist : IsDist adj entries c (d + 1) := by
        refine ⟨hreach, ?_⟩
        intro j hj
        by_contra hjlt
        push_neg at hjlt
        obtain ⟨s, hs, hsle⟩ := reachN_isDist hj
        exact hfresh (hfront c s hs (by omega))
      have hkeys2 : (depths ++ [(c, d + 1)]).map Prod.fst = depths.map Prod.fst ++ [c] := by
        rw [List.map_append]
        rfl
      have hnd2 : ((depths ++ [(c, d + 1)]).map Prod.fst).Nodup := by
        rw [hkeys2]
        rw [List.nodup_append]
        exact ⟨hnd, List.nodup_singleton c, by simpa using hfresh⟩
      have hsound2 : ∀ v k, (v, k) ∈ depths ++ [(c, d + 1)] → IsDist adj entries v k := by
        intro v k hv
        rcases List.mem_append.mp hv with hv | hv
        · exact hsound v k hv
        · have hv2 := List.mem_singleton.mp hv
          rw [Prod.mk.injEq] at hv2
          obtain ⟨rfl, rfl⟩ := hv2
          exact hdist
      have hfront2 : ∀ u s, IsDist adj entries u s → s ≤ d →
          u ∈ (depths ++ [(c, d + 1)]).map Prod.fst := by
        intro u s hu hs
        rw [hkeys2]
        exact List.mem_append_left _ (hfront u s hu hs)
      have hstep : discover (d + 1) (c :: cs) depths =
          ((discover (d + 1) cs (depths ++ [(c, d + 1)])).1,
            c :: (discover (d + 1) cs (depths ++ [(c, d + 1)])).2) := by
        conv_lhs => rw [discover]
        rw [hl]
      obtain ⟨i1, i2, i3, i4, i5, i6, i7⟩ := ih (depths ++ [(c, d + 1)])
        (fun c2 hc2 => hcs c2 (List.mem_cons_of_mem c hc2)) hnd2 hsound2 hfront2
      rw [hstep]
      refine ⟨?_, ?_, ?_, ?_, i5, ?_, ?_⟩
      · rw [i1, hkeys2, List.append_assoc]
        rfl
      · rw [List.nodup_cons]
        refine ⟨?_, i2⟩
        intro hc
        have hin := (i3 c hc).1
        rw [hkeys2] at hin
        exact hin (List.mem_append_right _ (List.mem_singleton.mpr rfl))
      · intro c2 hc2
        rcases List.mem_cons.mp hc2 with rfl | hc2m
        · exact ⟨hfresh, List.mem_cons_self _ _⟩
        · obtain ⟨ha, hb⟩ := i3 c2 hc2m
          rw [hkeys2] at ha
          exact ⟨fun hmem => ha (List.mem_append_left _ hmem), List.mem_cons_of_mem c hb⟩
      · intro c2 hc2
        rcases List.mem_cons.mp hc2 with rfl | hc2m
        · rw [i1, hkeys2]
          exact List.mem_append_left _ (List.mem_append_right _ (List.mem_singleton.mpr rfl))
        · exact i4 c2 hc2m
      · intro x hx
        rw [i6 x (by rw [hkeys2]; exact List.mem_append_left _ hx)]
        exact lookupDepth_append_left hx
      · intro c2 hc2
        rcases List.mem_cons.mp hc2 with rfl | hc2m
        · rw [i6 c2 (by rw [hkeys2]; exact List.mem_append_right _ (List.mem_singleton.mpr rfl))]
          rw [lookupDepth_append_right hl]
          simp [lookupDepth]
        · exact i7 c2 hc2m

/-- Correctness of the BFS work loop: with the invariant and enough
fuel (the queue length plus the number of undiscovered potential
targets), the final depth map is sound (every record is a true
shortest distance), contains every entry, and is closed under the
adjacency. -/
lemma bfsLoop_spec (adj : ℕ → List ℕ) (entries : List ℕ) (univ : Finset ℕ)
    (hU : ∀ v, ∀ c ∈ adj v, c ∈ univ) :
    ∀ (fuel : ℕ) (depths : List (ℕ × ℕ)) (q : List ℕ),
      BfsInv adj entries depths q →
      q.length + (univ \ (depths.map Prod.fst).toFinset).card ≤ fuel →
      (∀ v k, (v, k) ∈ bfsLoop adj fuel depths q → IsDist adj entries v k) ∧
      (∀ e ∈ entries, e ∈ (bfsLoop adj fuel depths q).map Prod.fst) ∧
      (∀ v ∈ (bfsLoop adj fuel depths q).map Prod.fst, ∀ c ∈ adj v,
        c ∈ (bfsLoop adj fuel depths q).map Prod.fst) := by
  intro fuel
  induction fuel with
  | zero =>
    intro depths q inv hfuel
    have hq : q = [] := List.length_eq_zero.mp (by omega)
    subst hq
    have h0 : bfsLoop adj 0 depths [] = depths := rfl
    rw [h0]
    exact ⟨inv.sound, inv.entriesSub,
      fun v hv c hc => inv.closed v hv (List.not_mem_nil v) c hc⟩
  | succ fuel ih =>
    intro depths q inv hfuel
    cases q with
    | nil =>
      have h0 : bfsLoop adj (fuel + 1) depths [] = depths := rfl
      rw [h0]
      exact ⟨inv.sound, inv.entriesSub,
        fun v hv c hc => inv.closed v hv (List.not_mem_nil v) c hc⟩
    | cons cur rest =>
      rcases inv.level with hq | ⟨d, qa, qb, hdecomp, hqane, hqa, hqb, hfront⟩
      · exact absurd hq (by simp)
      cases qa with
      | nil => exact absurd rfl hqane
      | cons c0 qa2 =>
        rw [List.cons_append] at hdecomp
        injection hdecomp with hc0 hrest
        subst hc0
        subst hrest
        have hcur_lookup : lookupDepth depths cur = some d :=
          hqa cur (List.mem_cons_self _ _)
        have hcur_mem : (cur, d) ∈ depths := lookupDepth_mem hcur_lookup
        have hcur_dist : IsDist adj entries cur d := inv.sound cur d hcur_mem
        obtain ⟨i1, i2, i3, i4, i5, i6, i7⟩ := discover_spec adj entries d cur hcur_dist.1
          (adj cur) depths (fun c hc => hc) inv.keysNodup inv.sound hfront
        have hstep : bfsLoop adj (fuel + 1) depths (cur :: (qa2 ++ qb))
            = bfsLoop adj fuel (discover (d + 1) (adj cur) depths).1
                ((qa2 ++ qb) ++ (discover (d + 1) (adj cur) depths).2) := by
          conv_lhs => rw [bfsLoop]
          rw [hcur_lookup]
          rfl
        rw [hstep]
        set D2 := (discover (d + 1) (adj cur) depths).1 with hD2
        set N := (discover (d + 1) (adj cur) depths).2 with hN
        have hkeysNodup2 : (D2.map Prod.fst).Nodup := by
          rw [i1, List.nodup_append]
          exact ⟨inv.keysNodup, i2, fun a ha hb => (i3 a hb).1 ha⟩
        have hentries2 : ∀ e ∈ entries, e ∈ D2.map Prod.fst := by
          intro e he
          rw [i1]
          exact List.mem_append_left _ (inv.entriesSub e he)
        have hqsub2 : ∀ v ∈ (qa2 ++ qb) ++ N, v ∈ D2.map Prod.fst := by
          intro v hv
          rw [i1]
          rcases List.mem_append.mp hv with hv | hv
          · exact List.mem_append_left _ (inv.qSub v (List.mem_cons_of_mem _ hv))
          · exact List.mem_append_right _ hv
        have hqNodup2 : ((qa2 ++ qb) ++ N).Nodup := by
          rw [List.nodup_append]
          refine ⟨(List.nodup_cons.mp inv.qNodup).2, i2, ?_⟩
          intro a ha hb
          exact (i3 a hb).1 (inv.qSub a (List.mem_cons_of_mem _ ha))
        have hclosed2 : ∀ v ∈ D2.map Prod.fst, v ∉ (qa2 ++ qb) ++ N →
            ∀ c ∈ adj v, c ∈ D2.map Prod.fst := by
          intro v hv hvq c hc
          rw [i1] at hv
          rcases List.mem_append.mp hv with hvk | hvN
          · by_cases hvcur : v = cur
            · subst hvcur
              exact i4 c hc
            · have hvout : v ∉ cur :: (qa2 ++ qb) := by
                intro hvin
                rcases List.mem_cons.mp hvin with h | h
                · exact hvcur h
                · exact hvq (List.mem_append_left _ h)
              have hcl := inv.closed v hvk hvout c hc
              rw [i1]
              exact List.mem_append_left _ hcl
          · exact absurd (List.mem_append_right _ hvN) hvq
        have hlevel2 : ((qa2 ++ qb) ++ N) = [] ∨ ∃ d2 qa3 qb3,
            (qa2 ++ qb) ++ N = qa3 ++ qb3 ∧ qa3 ≠ [] ∧
            (∀ x ∈ qa3, lookupDepth D2 x = some d2) ∧
            (∀ x ∈ qb3, lookupDepth D2 x = some (d2 + 1)) ∧
            (∀ u s, IsDist adj entries u s → s ≤ d2 → u ∈ D2.map Prod.fst) := by
          cases qa2 with
          | cons y ys =>
            right
            refine ⟨d, y :: ys, qb ++ N, by rw [List.append_assoc], by simp, ?_, ?_, ?_⟩
            · intro x hx
              have hxkeys : x ∈ depths.map Prod.fst :=
                inv.qSub x (List.mem_cons_of_mem _ (List.mem_append_left _ hx))
              rw [i6 x hxkeys]
              exact hqa x (List.mem_cons_of_mem _ hx)
            · intro x hx
              rcases List.mem_append.mp hx with hx | hx
              · have hxkeys : x ∈ depths.map Prod.fst :=
                  inv.qSub x (List.mem_cons_of_mem _ (List.mem_append_right _ hx))
                rw [i6 x hxkeys]
                exact hqb x hx
              · exact i7 x hx
            · intro u s hu hs
              rw [i1]
              exact List.mem_append_left _ (hfront u s hu hs)
          | nil =>
            rw [List.nil_append]
            by_cases hqn : qb ++ N = []
            · exact Or.inl hqn
            · right
              refine ⟨d + 1, qb ++ N, [], by simp, hqn, ?_, by simp, ?_⟩
              · intro x hx
                rcases List.mem_append.mp hx with hx | hx
                · have hxkeys : x ∈ depths.map Prod.fst :=
                    inv.qSub x (List.mem_cons_of_mem _ hx)
                  rw [i6 x hxkeys]
                  exact hqb x hx
                · exact i7 x hx
              · intro u s hu hs
                rcases Nat.lt_or_ge s (d + 1) with hlt | hge
                · rw [i1]
                  exact List.mem_append_left _ (hfront u s hu (by omega))
                · have hseq : s = d + 1 := by omega
                  subst hseq
                  obtain ⟨w, hw, hadj⟩ : ∃ w, ReachN adj entries d w ∧ u ∈ adj w := by
                    cases hu.1 with
                    | step hw hadj => exact ⟨_, hw, hadj⟩
                  obtain ⟨sw, hsw, hswle⟩ := reachN_isDist hw
                  have hwkeys : w ∈ depths.map Prod.fst := hfront w sw hsw (by omega)
                  have hwnotq : w ∉ qb ++ N := by
                    intro hwq
                    have hwlook : lookupDepth D2 w = some (d + 1) := by
                      rcases List.mem_append.mp hwq with h | h
                      · rw [i6 w hwkeys]
                        exact hqb w h
                      · exact i7 w h
                    have hwdist2 : IsDist adj entries w (d + 1) :=
                      i5 w (d + 1) (lookupDepth_mem hwlook)
                    have : sw = d + 1 := isDist_unique hsw hwdist2
                    omega
                  have hwkeys2 : w ∈ D2.map Prod.fst := by
                    rw [i1]
                    exact List.mem_append_left _ hwkeys
                  exact hclosed2 w hwkeys2 (by simpa using hwnotq) u hadj
        have inv2 : BfsInv adj entries D2 ((qa2 ++ qb) ++ N) :=
          ⟨hkeysNodup2, hentries2, hqsub2, hqNodup2, i5, hclosed2, hlevel2⟩
        have hNuniv : N.toFinset ⊆ univ \ (depths.map Prod.fst).toFinset := by
          intro a ha
          rw [List.mem_toFinset] at ha
          rw [Finset.mem_sdiff]
          refine ⟨hU cur a (i3 a ha).2, ?_⟩
          rw [List.mem_toFinset]
          exact (i3 a ha).1
        have hNlen : N.toFinset.card = N.length := List.toFinset_card_of_nodup i2
        have hNle : N.length ≤ (univ \ (depths.map Prod.fst).toFinset).card := by
          rw [← hNlen]
          exact Finset.card_le_card hNuniv
        have hcards : (univ \ (D2.map Prod.fst).toFinset).card
            = (univ \ (depths.map Prod.fst).toFinset).card - N.length := by
          have hk : (D2.map Prod.fst).toFinset
              = (depths.map Prod.fst).toFinset ∪ N.toFinset := by
            rw [i1, List.toFinset_append]
          have hsd : univ \ ((depths.map Prod.fst).toFinset ∪ N.toFinset)
              = (univ \ (depths.map Prod.fst).toFinset) \ N.toFinset := by
            ext a
            simp only [Finset.mem_sdiff, Finset.mem_union]
            tauto
          rw [hk, hsd, Finset.card_sdiff hNuniv, hNlen]
        have hfuel2 : ((qa2 ++ qb) ++ N).length
            + (univ \ (D2.map Prod.fst).toFinset).card ≤ fuel := by
          rw [hcards]
          simp only [List.length_append, List.length_cons] at hfuel ⊢
          omega
        exact ih D2 ((qa2 ++ qb) ++ N) inv2 hfuel2

/-- A node at distance `0` is a source. -/
lemma reachN_zero {adj : ℕ → List ℕ} {S : List ℕ} {v : ℕ}
    (h : ReachN adj S 0 v) : v ∈ S := by
  cases h with
  | entry _ h => exact h

/-- Lookup finds a recorded pair when keys are duplicate-free. -/
lemma lookupDepth_of_mem_nodup {d : List (ℕ × ℕ)}
    (hnd : (d.map Prod.fst).Nodup) {v k : ℕ} (h : (v, k) ∈ d) :
    lookupDepth d v = some k := by
  induction d with
  | nil => cases h
  | cons p ps ih =>
    obtain ⟨p1, p2⟩ := p
    rcases List.mem_cons.mp h with heq | hmem
    · rw [Prod.mk.injEq] at heq
      obtain ⟨rfl, rfl⟩ := heq
      simp [lookupDepth]
    · have hp1 : p1 ≠ v := by
        intro hpv
        rw [List.map_cons, List.nodup_cons] at hnd
        exact hnd.1 (hpv ▸ List.mem_map.mpr ⟨(v, k), hmem, rfl⟩)
      unfold lookupDepth
      rw [List.find?_cons_of_neg _ (by simp [hp1])]
      exact ih (by rw [List.map_cons, List.nodup_cons] at hnd; exact hnd.2) hmem

/-- The entry-point list inherits the node list's freedom from
duplicates. -/
lemma entryPoints_nodup (nodes : List ℕ) (callersMap : List (ℕ × List ℕ))
    (fallback : Option ℕ) (h : nodes.Nodup) :
    (entryPoints nodes callersMap fallback).Nodup := by
  unfold entryPoints
  by_cases he : (nodes.filter (fun a => (lookupList callersMap a).isEmpty)).isEmpty
  · rw [if_pos he]
    cases fallback with
    | none => exact List.nodup_nil
    | some e => exact List.nodup_singleton e
  · rw [if_neg he]
    exact h.filter _

/-! ## Claim theorems -/

/-- C1: for every non-empty byte buffer, `EntropyCalculator::calculate`
(the Jensen-Shannon metric) returns a value in `[0, 8]`; a buffer with
all 256 byte values equally represented scores exactly `8`; a constant
buffer scores a value in `[0, 1/4]`, i.e. near `0`, per the inverted
`(1 - JS) * 8` scaling. -/
theorem C1_calculate_bounds :
    (∀ data : List (Fin 256), data ≠ [] → 0 ≤ calculate data ∧ calculate data ≤ 8) ∧
    (∀ (data : List (Fin 256)) (k : ℕ), 0 < k → (∀ i, data.count i = k) →
      calculate data = 8) ∧
    (∀ (v : Fin 256) (n : ℕ), 0 < n →
      0 ≤ calculate (List.replicate n v) ∧ calculate (List.replicate n v) ≤ 1 / 4) := by
  have hmain : ∀ data : List (Fin 256), data ≠ [] →
      0 ≤ calculate data ∧ calculate data ≤ 8 := by
    intro data hne
    rw [calculate_eq data hne]
    have h1 := klPM_nonneg data hne
    have h2 := klPM_le_one data hne
    have h3 := klQM_nonneg data hne
    have h4 := klQM_le_one data
    norm_num
    constructor <;> linarith
  refine ⟨hmain, fun data k hk hcount => calculate_uniform data k hk hcount, ?_⟩
  intro v n hn
  have hne : List.replicate n v ≠ [] := by
    intro h
    have hh := congrArg List.length h
    simp at hh
    omega
  have hval := calculate_replicate v n hn
  obtain ⟨hl0, hl1⟩ := logb_257_256_bounds
  exact ⟨(hmain _ hne).1, by rw [hval]; linarith⟩

/-- C1 witness: the bounds at the concrete buffers `[0]` (non-empty),
`finRange 256` (every byte value once), and `replicate 3 0`
(a constant buffer). -/
theorem C1_calculate_bounds_witness :
    (0 ≤ calculate [(0 : Fin 256)] ∧ calculate [(0 : Fin 256)] ≤ 8) ∧
    calculate (List.finRange 256) = 8 ∧
    (0 ≤ calculate (List.replicate 3 (0 : Fin 256)) ∧
      calculate (List.replicate 3 (0 : Fin 256)) ≤ 1 / 4) :=
  ⟨C1_calculate_bounds.1 [(0 : Fin 256)] (by simp),
   C1_calculate_bounds.2.1 (List.finRange 256) 1 (by norm_num)
     (fun i => List.count_eq_one_of_mem (List.nodup_finRange 256) (List.mem_finRange i)),
   C1_calculate_bounds.2.2 (0 : Fin 256) 3 (by norm_num)⟩

/-- C2: for `start < end` and `block_size > 0`, `analyze_range` returns
blocks exactly tiling `[start, end)` in address order with no gaps and
no overlaps — the first block starts at `start`, each block starts where
the previous ends, the last ends at `end`, every block except possibly
the last has length `block_size` and the last has length at most
`block_size`; for `block_size == 0` or `start ≥ end` the result is
empty. -/
theorem C2_analyze_range_tiles (read : ℕ → ℕ → List (Fin 256)) (s e bs : ℕ) :
    (0 < bs → s < e → Tiles (analyze_range read s e bs) s e bs) ∧
    (bs = 0 ∨ e ≤ s → analyze_range read s e bs = []) := by
  constructor
  · intro hbs hse
    unfold analyze_range
    rw [if_neg (by omega)]
    exact analyzeRangeGo_tiles read e bs hbs _ s rfl hse
  · intro h
    unfold analyze_range
    rw [if_pos (by omega)]

/-- C2 witness: the tiling at a concrete range `[100, 350)` with block
size `64` over an unreadable byte source. -/
theorem C2_analyze_range_tiles_witness :
    Tiles (analyze_range (fun _ _ => []) 100 350 64) 100 350 64 :=
  (C2_analyze_range_tiles (fun _ _ => []) 100 350 64).1 (by norm_num) (by norm_num)


/-- C10: `ColorGradient::sample` on a gradient constructed from an
empty stop vector returns the default color `{0, 0, 0, 255}` (opaque
black) for every `t`, instead of failing. -/
theorem C10_sample_empty_stops (t : ℚ) :
    (ColorGradient.ofStops []).sample t = ⟨0, 0, 0, 255⟩ := by
  have h : (ColorGradient.ofStops []).stops_ = [] := by
    simp [ColorGradient.ofStops]
  rw [ColorGradient.sample, h]
  rfl

/-- C3: with viewport `[1000, 2000)` and height `100`, the coordinate
round trip `address_to_y(y_to_address(y, 100), 100)` reproduces every
row `y` in `[0, 100)` exactly (hence within the claimed `±1`). -/
theorem C3_coordinate_round_trip (st : MinimapState)
    (h1 : st.viewport.start_ea = 1000) (h2 : st.viewport.end_ea = 2000)
    (y : ℤ) (hy0 : 0 ≤ y) (hy1 : y < 100) :
    address_to_y_ea st (y_to_address_ea st y 100) 100 = y := by
  obtain ⟨z, rfl⟩ : ∃ z : ℕ, y = (z : ℤ) := ⟨y.toNat, (Int.toNat_of_nonneg hy0).symm⟩
  have hz : z < 100 := by exact_mod_cast hy1
  have hrange : st.viewport.range = 1000 := by
    simp [Viewport.range, h1, h2]
  have haddr : y_to_address_ea st (z : ℤ) 100 = 1000 + 10 * z := by
    unfold y_to_address_ea
    rw [if_neg (by push_neg; refine ⟨by norm_num, by positivity, by exact_mod_cast hz⟩)]
    dsimp only
    have ht : ((z : ℤ) : ℚ) / ((100 : ℤ) : ℚ) * ((st.viewport.range : ℕ) : ℚ)
        = ((10 * z : ℕ) : ℚ) := by
      rw [hrange]
      push_cast
      ring
    rw [ht, Int.floor_natCast, Int.toNat_natCast, h1]
  rw [haddr]
  unfold address_to_y_ea
  rw [if_neg (by push_neg; refine ⟨by norm_num, by omega, by omega⟩)]
  rw [if_neg (by omega)]
  dsimp only
  have ht2 : ((1000 + 10 * z - st.viewport.start_ea : ℕ) : ℚ) / ((st.viewport.range : ℕ) : ℚ)
      * ((100 : ℤ) : ℚ) = ((z : ℕ) : ℚ) := by
    rw [hrange, h1]
    have : (1000 + 10 * z - 1000 : ℕ) = 10 * z := by omega
    rw [this]
    push_cast
    ring
  rw [ht2, Int.floor_natCast]

/-- C6: `compute_call_depths` assigns depth `0` to every entry point
(every node without callers, or the single host-derived entry when all
nodes have callers); every node reachable from the entry set along call
edges receives its multi-source BFS shortest-path distance; and every
unreached node receives depth `0`. -/
theorem C6_compute_call_depths_correct (nodes : List ℕ)
    (calleesMap callersMap : List (ℕ × List ℕ)) (fallback : Option ℕ)
    (hnd : nodes.Nodup) :
    (∀ v ∈ nodes, v ∈ entryPoints nodes callersMap fallback →
      assignedDepth (compute_call_depths nodes calleesMap callersMap fallback) v = 0) ∧
    (∀ v ∈ nodes,
      Reachable (lookupList calleesMap) (entryPoints nodes callersMap fallback) v →
      IsDist (lookupList calleesMap) (entryPoints nodes callersMap fallback) v
        (assignedDepth (compute_call_depths nodes calleesMap callersMap fallback) v)) ∧
    (∀ v ∈ nodes,
      ¬ Reachable (lookupList calleesMap) (entryPoints nodes callersMap fallback) v →
      assignedDepth (compute_call_depths nodes calleesMap callersMap fallback) v = 0) := by
  set entries := entryPoints nodes callersMap fallback with hent
  set adj := lookupList calleesMap with hadj
  set depths0 := entries.map (fun e => (e, 0)) with hd0
  set univL := (calleesMap.map (fun p => p.2)).flatten with huniv
  have hcomp : compute_call_depths nodes calleesMap callersMap fallback
      = bfsLoop adj (entries.length + univL.length + 1) depths0 entries := rfl
  have hentnd : entries.Nodup := entryPoints_nodup nodes callersMap fallback hnd
  have hkeys0 : depths0.map Prod.fst = entries := by
    have hid : (Prod.fst ∘ fun e : ℕ => (e, 0)) = id := rfl
    rw [hd0, List.map_map, hid, List.map_id]
  have hlook0 : ∀ x ∈ entries, lookupDepth depths0 x = some 0 := by
    intro x hx
    apply lookupDepth_of_mem_nodup (by rw [hkeys0]; exact hentnd)
    rw [hd0]
    exact List.mem_map.mpr ⟨x, hx, rfl⟩
  have hsound0 : ∀ v k, (v, k) ∈ depths0 → IsDist adj entries v k := by
    intro v k hv
    rw [hd0] at hv
    obtain ⟨e, he, heq⟩ := List.mem_map.mp hv
    rw [Prod.mk.injEq] at heq
    obtain ⟨rfl, rfl⟩ := heq
    exact ⟨ReachN.entry _ he, fun j _ => Nat.zero_le j⟩
  have hinv0 : BfsInv adj entries depths0 entries := by
    refine ⟨by rw [hkeys0]; exact hentnd, by rw [hkeys0]; exact fun e he => he,
      by rw [hkeys0]; exact fun v hv => hv, hentnd, hsound0, ?_, ?_⟩
    · rw [hkeys0]
      intro v hv hvq
      exact absurd hv hvq
    · by_cases hne : entries = []
      · exact Or.inl hne
      · right
        refine ⟨0, entries, [], by simp, hne, hlook0, by simp, ?_⟩
        intro u s hu hs
        rw [hkeys0]
        have hs0 : s = 0 := by omega
        subst hs0
        exact reachN_zero hu.1
  have hU : ∀ v, ∀ c ∈ adj v, c ∈ univL.toFinset := by
    intro v c hc
    rw [List.mem_toFinset, huniv]
    rw [hadj] at hc
    unfold lookupList at hc
    cases hf : calleesMap.find? (fun p => p.1 == v) with
    | none =>
      rw [hf] at hc
      simp at hc
    | some pr =>
      rw [hf] at hc
      simp at hc
      have hmem := List.mem_of_find?_eq_some hf
      exact List.mem_flatten.mpr ⟨pr.2, List.mem_map_of_mem _ hmem, hc⟩
  have hfuel0 : entries.length + (univL.toFinset \ (depths0.map Prod.fst).toFinset).card
      ≤ entries.length + univL.length + 1 := by
    have h1 : (univL.toFinset \ (depths0.map Prod.fst).toFinset).card
        ≤ univL.toFinset.card := Finset.card_le_card (Finset.sdiff_subset)
    have h2 : univL.toFinset.card ≤ univL.length := List.toFinset_card_le univL
    omega
  obtain ⟨hs, he, hc⟩ := bfsLoop_spec adj entries univL.toFinset hU
    (entries.length + univL.length + 1) depths0 entries hinv0 hfuel0
  set D := bfsLoop adj (entries.length + univL.length + 1) depths0 entries with hD
  have hreachkeys : ∀ k v, ReachN adj entries k v → v ∈ D.map Prod.fst := by
    intro k
    induction k with
    | zero => exact fun v hv => he v (reachN_zero hv)
    | succ k ihk =>
      intro v hv
      cases hv with
      | step hw hadj2 => exact hc _ (ihk _ hw) v hadj2
  refine ⟨?_, ?_, ?_⟩
  · intro v _ hv
    have hvk : v ∈ D.map Prod.fst := he v hv
    obtain ⟨k, hk⟩ := lookupDepth_isSome_of_mem hvk
    have hkd := hs v k (lookupDepth_mem hk)
    have h0 : IsDist adj entries v 0 := ⟨ReachN.entry _ hv, fun j _ => Nat.zero_le j⟩
    have hk0 : k = 0 := isDist_unique hkd h0
    unfold assignedDepth
    rw [hcomp, hk, hk0]
    rfl
  · intro v _ hv
    obtain ⟨k0, hk0⟩ := hv
    have hvk : v ∈ D.map Prod.fst := hreachkeys k0 v hk0
    obtain ⟨k, hk⟩ := lookupDepth_isSome_of_mem hvk
    have hkd := hs v k (lookupDepth_mem hk)
    unfold assignedDepth
    rw [hcomp, hk]
    exact hkd
  · intro v _ hv
    have hvk : v ∉ D.map Prod.fst := by
      intro hmem
      obtain ⟨k, hk⟩ := lookupDepth_isSome_of_mem hmem
      exact hv ⟨k, (hs v k (lookupDepth_mem hk)).1⟩
    unfold assignedDepth
    rw [hcomp, lookupDepth_eq_none.mpr hvk]
    rfl

/-- C6 witness: the three depth properties on the concrete two-node
graph `1 → 2` (node `1` has no callers and is the only entry point). -/
theorem C6_compute_call_depths_correct_witness :
    (∀ v ∈ [1, 2], v ∈ entryPoints [1, 2] [(2, [1])] none →
      assignedDepth (compute_call_depths [1, 2] [(1, [2])] [(2, [1])] none) v = 0) ∧
    (∀ v ∈ [1, 2],
      Reachable (lookupList [(1, [2])]) (entryPoints [1, 2] [(2, [1])] none) v →
      IsDist (lookupList [(1, [2])]) (entryPoints [1, 2] [(2, [1])] none) v
        (assignedDepth (compute_call_depths [1, 2] [(1, [2])] [(2, [1])] none) v)) ∧
    (∀ v ∈ [1, 2],
      ¬ Reachable (lookupList [(1, [2])]) (entryPoints [1, 2] [(2, [1])] none) v →
      assignedDepth (compute_call_depths [1, 2] [(1, [2])] [(2, [1])] none) v = 0) :=
  C6_compute_call_depths_correct [1, 2] [(1, [2])] [(2, [1])] none (by decide)

/-- C7 counterexample: with the degenerate viewport `[1000, 1000)`,
`address_to_y` returns `-1` (the invalid sentinel), not the claimed
`0` — every address fails the `start ≤ addr < end` guard before the
`range == 0` branch can be reached. -/
theorem C7_cex_degenerate_viewport :
    address_to_y_ea ⟨0, 4096, 256, ⟨1000, 1000, 1⟩⟩ 1000 100 = -1 ∧
    address_to_y_ea ⟨0, 4096, 256, ⟨1000, 1000, 1⟩⟩ 1000 100 ≠ 0 := by
  constructor
  · rfl
  · decide

/-- C7 (amended): `address_to_y(addr, H)` returns a non-negative pixel
row only if `H > 0` and `start ≤ addr < end`; when the viewport is
degenerate (`end == start`) the result is `-1` for every address — the
internal `range == 0 → 0` branch is unreachable. -/
theorem C7_address_to_y_validity (st : MinimapState) (addr : ℕ) (height : ℤ) :
    (0 ≤ address_to_y_ea st addr height →
      0 < height ∧ st.viewport.start_ea ≤ addr ∧ addr < st.viewport.end_ea) ∧
    (st.viewport.end_ea = st.viewport.start_ea → address_to_y_ea st addr height = -1) := by
  constructor
  · intro hnn
    unfold address_to_y_ea at hnn
    by_cases hg : height ≤ 0 ∨ addr < st.viewport.start_ea ∨ st.viewport.end_ea ≤ addr
    · rw [if_pos hg] at hnn
      norm_num at hnn
    · push_neg at hg
      exact ⟨by omega, hg.2.1, hg.2.2⟩
  · intro hdeg
    unfold address_to_y_ea
    rw [if_pos]
    right
    omega

/-- C9: `pan_ida(delta)` preserves the viewport width for every signed
`delta`, whenever the viewport lies inside the database bounds: both
bounds are shifted by one common truncated amount. -/
theorem C9_pan_preserves_width (st : MinimapState) (delta : ℤ)
    (hdb1 : st.db_start ≤ st.viewport.start_ea)
    (hvp : st.viewport.start_ea ≤ st.viewport.end_ea)
    (hdb2 : st.viewport.end_ea ≤ st.db_end) :
    (pan_ida st delta).viewport.range = st.viewport.range := by
  unfold pan_ida Viewport.range
  by_cases h1 : 0 < delta
  · rw [if_pos h1]
    simp only
    omega
  · rw [if_neg h1]
    by_cases h2 : delta < 0
    · rw [if_pos h2]
      simp only
      have hle : min (-delta).toNat (st.viewport.start_ea - st.db_start)
          ≤ st.viewport.start_ea := by
        have := min_le_right (-delta).toNat (st.viewport.start_ea - st.db_start)
        omega
      omega
    · rw [if_neg h2]

/-- C3 witness: the round trip at the concrete row `y = 37`. -/
theorem C3_coordinate_round_trip_witness :
    address_to_y_ea ⟨0, 4096, 256, ⟨1000, 2000, 1⟩⟩
      (y_to_address_ea ⟨0, 4096, 256, ⟨1000, 2000, 1⟩⟩ 37 100) 100 = 37 :=
  C3_coordinate_round_trip ⟨0, 4096, 256, ⟨1000, 2000, 1⟩⟩ rfl rfl 37
    (by norm_num) (by norm_num)

/-- C7 witness: the amended statement at a concrete state and input. -/
theorem C7_address_to_y_validity_witness :
    (0 ≤ address_to_y_ea ⟨0, 4096, 256, ⟨500, 1500, 1⟩⟩ 700 100 →
      (0 : ℤ) < 100 ∧ 500 ≤ 700 ∧ 700 < 1500) ∧
    ((1500 : ℕ) = 500 → address_to_y_ea ⟨0, 4096, 256, ⟨500, 1500, 1⟩⟩ 700 100 = -1) :=
  C7_address_to_y_validity ⟨0, 4096, 256, ⟨500, 1500, 1⟩⟩ 700 100

/-- C9 witness: panning a concrete in-bounds viewport by `+300`. -/
theorem C9_pan_preserves_width_witness :
    (pan_ida ⟨0, 4096, 256, ⟨1000, 2000, 1⟩⟩ 300).viewport.range
      = (⟨1000, 2000, 1⟩ : Viewport).range :=
  C9_pan_preserves_width ⟨0, 4096, 256, ⟨1000, 2000, 1⟩⟩ 300
    (by norm_num) (by norm_num) (by norm_num)

/-- C4 counterexample: zooming far in (`factor = 8`) from a viewport of
range `1000` with block size `256` would give `floor(1000/8) = 125`,
which is below the block size: the code leaves the viewport unchanged
(range stays `1000`), it does not clamp the new range up to the block
size `256` as the claim states. -/
theorem C4_cex_no_clamp_to_block_size :
    (zoom_ida ⟨0, 10000, 256, ⟨0, 1000, 1⟩⟩ 8 500).viewport.range = 1000 ∧
    (1000 : ℕ) ≠ 256 := by
  constructor
  · have h8 : ((0 : ℚ) < 8) := by norm_num
    have hfl : (Int.floor (((1000 : ℕ) : ℚ) / 8)).toNat = 125 := by
      norm_num
      rfl
    unfold zoom_ida
    rw [if_neg (not_le.mpr h8)]
    dsimp only
    rw [show ((⟨0, 10000, 256, ⟨0, 1000, 1⟩⟩ : MinimapState).viewport.range : ℚ)
      = ((1000 : ℕ) : ℚ) from by norm_num [Viewport.range]]
    rw [if_pos (by rw [hfl]; norm_num)]
    norm_num [Viewport.range]
  · decide

/-- C4 (amended): for `factor > 0`, with the viewport inside the
database bounds and `center` inside the viewport: if the truncated
`old_range / factor` is below the block size the zoom is a no-op
(the viewport is left unchanged rather than clamped up); otherwise the
new viewport range is `old_range / factor` clamped to the database
range, the window stays inside the database bounds (shifted to the
nearest valid position when the recentering would leave them), and
`center` is inside the new viewport. -/
theorem C4_zoom_range_and_bounds (st : MinimapState) (factor : ℚ) (center : ℕ)
    (hf : 0 < factor)
    (hvp : st.viewport.start_ea < st.viewport.end_ea)
    (hdb1 : st.db_start ≤ st.viewport.start_ea)
    (hdb2 : st.viewport.end_ea ≤ st.db_end)
    (hc1 : st.viewport.start_ea ≤ center)
    (hc2 : center < st.viewport.end_ea)
    (hbs : 0 < st.block_size) :
    ((Int.floor ((st.viewport.range : ℚ) / factor)).toNat < st.block_size →
      zoom_ida st factor center = st) ∧
    (st.block_size ≤ (Int.floor ((st.viewport.range : ℚ) / factor)).toNat →
      (zoom_ida st factor center).viewport.range
          = min (Int.floor ((st.viewport.range : ℚ) / factor)).toNat
              (st.db_end - st.db_start) ∧
      st.db_start ≤ (zoom_ida st factor center).viewport.start_ea ∧
      (zoom_ida st factor center).viewport.end_ea ≤ st.db_end ∧
      (zoom_ida st factor center).viewport.start_ea ≤ center ∧
      center < (zoom_ida st factor center).viewport.end_ea) := by
  have hor : 0 < st.viewport.range := by
    simp only [Viewport.range]
    omega
  unfold zoom_ida
  rw [if_neg (not_le.mpr hf)]
  dsimp only
  set nr := (Int.floor ((st.viewport.range : ℚ) / factor)).toNat with hnr
  constructor
  · intro hlt
    rw [if_pos hlt]
  · intro hge
    rw [if_neg (not_lt.mpr hge)]
    set cl := min nr (st.db_end - st.db_start) with hcl
    set ratio : ℚ := ((center - st.viewport.start_ea : ℕ) : ℚ) / ((st.viewport.range : ℕ) : ℚ)
      with hratio
    set ob := (Int.floor (ratio * (cl : ℚ))).toNat with hob
    have hclpos : 0 < cl := by
      have : 0 < st.db_end - st.db_start := by omega
      omega
    have hsub : (center - st.viewport.start_ea : ℕ) < st.viewport.range := by
      simp only [Viewport.range]
      omega
    have hratio1 : ratio < 1 := by
      rw [hratio, div_lt_one (by exact_mod_cast hor)]
      exact_mod_cast hsub
    have hprod_lt : ratio * (cl : ℚ) < (cl : ℚ) := by
      have h1 : ratio * (cl : ℚ) < 1 * (cl : ℚ) :=
        mul_lt_mul_of_pos_right hratio1 (by exact_mod_cast hclpos)
      simpa using h1
    have hfour : (⌊ratio * (cl : ℚ)⌋ : ℚ) ≤ ratio * (cl : ℚ) := Int.floor_le _
    have hflt : ⌊ratio * (cl : ℚ)⌋ < ((cl : ℕ) : ℤ) := by
      have : (⌊ratio * (cl : ℚ)⌋ : ℚ) < ((cl : ℕ) : ℚ) := lt_of_le_of_lt hfour hprod_lt
      exact_mod_cast this
    have hoblt : ob < cl := by
      rw [hob]
      omega
    split_ifs <;>
      first
        | (simp only [Viewport.range]; omega)
        | omega

/-- C4 witness: the amended statement at a concrete zoom (`factor = 2`
on viewport `[1000, 2000)` of a `[0, 10000]` database, centered at
`1500`, block size `100`). -/
theorem C4_zoom_range_and_bounds_witness :
    (((Int.floor (((⟨1000, 2000, 1⟩ : Viewport).range : ℚ) / 2)).toNat < 100 →
      zoom_ida ⟨0, 10000, 100, ⟨1000, 2000, 1⟩⟩ 2 1500 = ⟨0, 10000, 100, ⟨1000, 2000, 1⟩⟩) ∧
    (100 ≤ (Int.floor (((⟨1000, 2000, 1⟩ : Viewport).range : ℚ) / 2)).toNat →
      (zoom_ida ⟨0, 10000, 100, ⟨1000, 2000, 1⟩⟩ 2 1500).viewport.range
          = min (Int.floor (((⟨1000, 2000, 1⟩ : Viewport).range : ℚ) / 2)).toNat (10000 - 0) ∧
      0 ≤ (zoom_ida ⟨0, 10000, 100, ⟨1000, 2000, 1⟩⟩ 2 1500).viewport.start_ea ∧
      (zoom_ida ⟨0, 10000, 100, ⟨1000, 2000, 1⟩⟩ 2 1500).viewport.end_ea ≤ 10000 ∧
      (zoom_ida ⟨0, 10000, 100, ⟨1000, 2000, 1⟩⟩ 2 1500).viewport.start_ea ≤ 1500 ∧
      1500 < (zoom_ida ⟨0, 10000, 100, ⟨1000, 2000, 1⟩⟩ 2 1500).viewport.end_ea)) :=
  C4_zoom_range_and_bounds ⟨0, 10000, 100, ⟨1000, 2000, 1⟩⟩ 2 1500
    (by norm_num) (by norm_num) (by norm_num) (by norm_num) (by norm_num) (by norm_num)
    (by norm_num)

/-- C5 counterexample: a jump-near xref from the body of the function
at `0` to the start of the different function at `10` satisfies the
claim's edge criterion, but `build_call_graph` produces no edge for it
(only `fl_CN`/`fl_CF` call kinds are accepted, jump kinds are not). -/
theorem C5_cex_jump_kind_no_edge :
    ClaimCallEdge cexHost 0 10 ∧ (0, 10) ∉ (build_call_graph cexHost).edges := by
  constructor
  · refine ⟨⟨0, 4, [0]⟩, ?_, rfl, 0, ?_, ⟨10, XrefType.jumpNear⟩, ?_, ?_,
      ⟨10, 14, [10]⟩, ?_, rfl, ?_⟩
    · simp [cexHost]
    · simp [cexHost]
    · simp [cexHost]
    · exact Or.inr (Or.inr (Or.inl rfl))
    · simp [cexHost]
    · norm_num
  · decide

/-- C5 (amended): in `BinaryMapData::build_call_graph`, when every node
address resolves back to its function and function start addresses are
distinct, an edge `(a, b)` is produced exactly when some xref at an
instruction head inside the function at `a` has kind call-near or
call-far (jump kinds are not accepted) and its target resolves to the
start of a different function `b`. -/
theorem C5_call_edge_criterion (host : XrefHost)
    (hA : ∀ f ∈ host.funcs, host.funcAt f.start_ea = some f)
    (hN : (host.funcs.map (fun f => f.start_ea)).Nodup) :
    ∀ a b, (a, b) ∈ (build_call_graph host).edges ↔ CodeCallEdge host a b := by
  intro a b
  unfold build_call_graph
  rw [foldl_processFunc_spec host (host.funcs.map (fun f => f.start_ea))
    ⟨fun _ => [], fun _ => [], []⟩ hN (fun _ _ => rfl) a b]
  constructor
  · rintro (h | ⟨a1, ha1, rfl, f, hf, hcond⟩)
    · exact absurd h (List.not_mem_nil _)
    · obtain ⟨f0, hf0, hstart⟩ := List.mem_map.mp ha1
      rw [← hstart] at hf
      rw [hA f0 hf0] at hf
      obtain rfl : f0 = f := Option.some.inj hf
      exact ⟨_, hf0, hstart, hcond⟩
  · rintro ⟨f, hf, rfl, hcond⟩
    exact Or.inr ⟨f.start_ea, List.mem_map.mpr ⟨f, hf, rfl⟩, rfl, f, hA f hf, hcond⟩

/-- C5 witness: the amended criterion instantiated at the concrete
two-function host. -/
theorem C5_call_edge_criterion_witness :
    ((0, 10) ∈ (build_call_graph cexHost).edges ↔ CodeCallEdge cexHost 0 10) :=
  C5_call_edge_criterion cexHost (by decide) (by decide) 0 10

/-- C8: the KK and FR phases of `compute_2d_force_layout` always
terminate: with `n` nodes, KK performs at most `min(300, 10n)` move
iterations and FR at most `min(200, 5n)` force iterations, an early
stop happens only when the convergence measure fell below `0.01`, and
in every case the positions computed so far are returned (the loops are
total functions). -/
theorem C8_layout_iteration_caps {S T : Type} (stepK : S → S) (maxDelta : S → ℚ)
    (stepF : T → T × ℚ) (n : ℕ) (s0 : S) (t0 : T) :
    ((kkLoop stepK maxDelta (kkIterations n) s0).2 ≤ kkIterations n ∧
      ((kkLoop stepK maxDelta (kkIterations n) s0).2 < kkIterations n →
        maxDelta (kkLoop stepK maxDelta (kkIterations n) s0).1 < 1 / 100)) ∧
    ((frLoop stepF (frIterations n) t0).2 ≤ frIterations n ∧
      ((frLoop stepF (frIterations n) t0).2 < frIterations n →
        ∃ t1 : T, (frLoop stepF (frIterations n) t0).1 = (stepF t1).1 ∧
          (stepF t1).2 < 1 / 100)) := by
  have hkk : ∀ (k : ℕ) (s : S), (kkLoop stepK maxDelta k s).2 ≤ k ∧
      ((kkLoop stepK maxDelta k s).2 < k → maxDelta (kkLoop stepK maxDelta k s).1 < 1 / 100) := by
    intro k
    induction k with
    | zero => intro s; simp [kkLoop]
    | succ k ih =>
      intro s
      by_cases hc : maxDelta s < 1 / 100
      · simp only [kkLoop, if_pos hc]
        exact ⟨by omega, fun _ => hc⟩
      · simp only [kkLoop, if_neg hc]
        refine ⟨by have := (ih (stepK s)).1; omega, ?_⟩
        intro hlt
        exact (ih (stepK s)).2 (by omega)
  have hfr : ∀ (k : ℕ) (t : T), (frLoop stepF k t).2 ≤ k ∧
      ((frLoop stepF k t).2 < k →
        ∃ t1 : T, (frLoop stepF k t).1 = (stepF t1).1 ∧ (stepF t1).2 < 1 / 100) := by
    intro k
    induction k with
    | zero => intro t; simp [frLoop]
    | succ k ih =>
      intro t
      by_cases hc : (stepF t).2 < 1 / 100
      · simp only [frLoop, if_pos hc]
        exact ⟨by omega, fun _ => ⟨t, rfl, hc⟩⟩
      · simp only [frLoop, if_neg hc]
        refine ⟨by have := (ih (stepF t).1).1; omega, ?_⟩
        intro hlt
        exact (ih (stepF t).1).2 (by omega)
  exact ⟨hkk (kkIterations n) s0, hfr (frIterations n) t0⟩

/-- C8 witness: the caps and the early-stop property at a concrete
instantiation (an immediately-converged system with `n = 1`). -/
theorem C8_layout_iteration_caps_witness :
    ((kkLoop (id : ℚ → ℚ) (fun _ => 0) (kkIterations 1) 0).2 ≤ kkIterations 1 ∧
      ((kkLoop (id : ℚ → ℚ) (fun _ => 0) (kkIterations 1) 0).2 < kkIterations 1 →
        (fun (_ : ℚ) => (0 : ℚ)) (kkLoop (id : ℚ → ℚ) (fun _ => 0) (kkIterations 1) 0).1
          < 1 / 100)) ∧
    ((frLoop (fun (t : ℚ) => (t, 0)) (frIterations 1) 0).2 ≤ frIterations 1 ∧
      ((frLoop (fun (t : ℚ) => (t, 0)) (frIterations 1) 0).2 < frIterations 1 →
        ∃ t1 : ℚ, (frLoop (fun (t : ℚ) => (t, 0)) (frIterations 1) 0).1
          = ((fun (t : ℚ) => (t, (0 : ℚ))) t1).1 ∧
          ((fun (t : ℚ) => (t, (0 : ℚ))) t1).2 < 1 / 100)) :=
  C8_layout_iteration_caps (id : ℚ → ℚ) (fun _ => 0) (fun (t : ℚ) => (t, 0)) 1 0 0

end Synopsia
